import Mathlib

/-!
Verification development for a small embeddable relational storage engine
(C++ source: `cpp_core/db_core.h`).  The engine stores rows as text fields,
serializes them into fixed 4096-byte pages, keeps in-memory ordered indexes
(primary and composite), maintains MVCC version chains, and executes
relational operators (filter with pushed-down conditions, group-by, ...).

Modelling conventions:
* C++ `std::string` / byte buffers are `List Nat`, each element one byte.
  `std::string` comparison is lexicographic on bytes (`lexLt` below).
* `size_t` is 64-bit; arithmetic that the C++ performs on `size_t` is
  `Nat` arithmetic reduced `% 2 ^ 64` where the C++ could wrap, and the
  8-byte little-endian memory image of a `size_t` is `toLEBytes 8`.
* Out-of-bounds reads, which are undefined behaviour in the C++ source,
  are instrumented: a function whose C++ original would read outside the
  provided buffer returns `none` at exactly that point.
* `std::map` is a sorted association list (`MapL`), sorted by `lexLt`.
-/

namespace DBCore

set_option maxRecDepth 10000

/-- Little-endian byte image of a natural number, `w` bytes wide.  This is the
memory image `memcpy` writes for a `size_t` value when `w = 8` (digits beyond
the width are dropped, i.e. the value is taken `mod 2^(8*w)`). -/
def toLEBytes : Nat → Nat → List Nat
  | 0, _ => []
  | w + 1, n => n % 256 :: toLEBytes w (n / 256)

/-- Value read back from a little-endian byte image (what `memcpy` into a
`size_t` yields). -/
def fromLEBytes (bs : List Nat) : Nat :=
  bs.foldr (fun b acc => b + 256 * acc) 0

theorem toLEBytes_length (w n : Nat) : (toLEBytes w n).length = w := by
  induction w generalizing n with
  | zero => rfl
  | succ w ih => simp [toLEBytes, ih]

theorem fromLEBytes_toLEBytes (w n : Nat) :
    fromLEBytes (toLEBytes w n) = n % 256 ^ w := by
  induction w generalizing n with
  | zero => simp [toLEBytes, fromLEBytes, Nat.mod_one]
  | succ w ih =>
    have h : (256 : Nat) ^ (w + 1) = 256 * 256 ^ w := by ring
    simp only [toLEBytes, fromLEBytes, List.foldr] at *
    rw [ih, h, Nat.mod_mul]

theorem fromLEBytes_toLEBytes8 {n : Nat} (h : n < 2 ^ 64) :
    fromLEBytes (toLEBytes 8 n) = n := by
  have h256 : (256 : Nat) ^ 8 = 2 ^ 64 := by norm_num
  rw [fromLEBytes_toLEBytes, h256, Nat.mod_eq_of_lt h]

theorem take_append_len {α : Type} (l1 l2 : List α) {n : Nat} (h : l1.length = n) :
    (l1 ++ l2).take n = l1 := by
  subst h; exact List.take_left l1 l2

theorem drop_append_len {α : Type} (l1 l2 : List α) {n : Nat} (h : l1.length = n) :
    (l1 ++ l2).drop n = l2 := by
  subst h; exact List.drop_left l1 l2

theorem drop_append_add {α : Type} (l1 l2 : List α) (n : Nat) :
    (l1 ++ l2).drop (l1.length + n) = l2.drop n := by
  rw [← List.drop_drop, List.drop_left]

theorem toLEBytes_replicate_zero (w : Nat) :
    toLEBytes w 0 = List.replicate w 0 := by
  induction w with
  | zero => rfl
  | succ w ih => simp [toLEBytes, ih, List.replicate]

/-- Bytes of the serialized form of one row, translated from `Row::serialize`:
one tombstone byte, an 8-byte field count, then for each field an 8-byte
length followed by the field's bytes. -/
structure RowV where
  values : List (List Nat)
  is_deleted : Bool
deriving DecidableEq, Repr

/-- Translation of `Row::serialize`. -/
def rowSerialize (r : RowV) : List Nat :=
  (if r.is_deleted then 1 else 0) ::
    (toLEBytes 8 r.values.length ++
      (r.values.map (fun v => toLEBytes 8 v.length ++ v)).flatten)

/-- Field-reading loop of `Row::deserialize`: read `n` fields, each an 8-byte
length followed by that many bytes.  The C++ loop performs no bounds checks;
`none` marks exactly the points where it would read past the buffer. -/
def readFields : Nat → List Nat → Option (List (List Nat))
  | 0, _ => some []
  | n + 1, buf =>
    if buf.length < 8 then none
    else
      let len := fromLEBytes (buf.take 8)
      let rest := buf.drop 8
      if rest.length < len then none
      else (readFields n (rest.drop len)).map (fun vs => rest.take len :: vs)

/-- Translation of `Row::deserialize`.  The C++ reads the tombstone byte and
the field count unconditionally; `none` marks the out-of-bounds reads the C++
would perform on a buffer that is too short. -/
def rowDeserialize (data : List Nat) : Option RowV :=
  match data with
  | [] => none
  | b :: rest =>
    if rest.length < 8 then none
    else
      let cnt := fromLEBytes (rest.take 8)
      (readFields cnt (rest.drop 8)).map (fun vs => ⟨vs, b = 1⟩)

theorem readFields_flatten : ∀ (vs : List (List Nat)) (extra : List Nat),
    (∀ v ∈ vs, v.length < 2 ^ 64) →
    readFields vs.length
      ((vs.map (fun v => toLEBytes 8 v.length ++ v)).flatten ++ extra) =
      some vs := by
  intro vs
  induction vs with
  | nil => intro extra h; rfl
  | cons v vs ih =>
    intro extra h
    have hv : v.length < 2 ^ 64 := h v (List.mem_cons_self _ _)
    have hlen8 : (toLEBytes 8 v.length).length = 8 := toLEBytes_length 8 v.length
    have hbuf :
        ((List.cons v vs).map (fun v => toLEBytes 8 v.length ++ v)).flatten ++ extra =
          toLEBytes 8 v.length ++ (v ++
            ((vs.map (fun v => toLEBytes 8 v.length ++ v)).flatten ++ extra)) := by
      simp [List.flatten]
    rw [List.length_cons, readFields, hbuf]
    have hlong : ¬ (toLEBytes 8 v.length ++ (v ++
        ((vs.map (fun v => toLEBytes 8 v.length ++ v)).flatten ++ extra))).length < 8 := by
      simp [hlen8]
    rw [if_neg hlong]
    have htake : (toLEBytes 8 v.length ++ (v ++
        ((vs.map (fun v => toLEBytes 8 v.length ++ v)).flatten ++ extra))).take 8 =
        toLEBytes 8 v.length := by
      rw [← hlen8]; exact List.take_left _ _
    have hdrop : (toLEBytes 8 v.length ++ (v ++
        ((vs.map (fun v => toLEBytes 8 v.length ++ v)).flatten ++ extra))).drop 8 =
        v ++ ((vs.map (fun v => toLEBytes 8 v.length ++ v)).flatten ++ extra) := by
      rw [← hlen8]; exact List.drop_left _ _
    rw [htake, hdrop]
    have hval : fromLEBytes (toLEBytes 8 v.length) = v.length :=
      fromLEBytes_toLEBytes8 hv
    rw [hval]
    have hnotshort : ¬ (v ++
        ((vs.map (fun v => toLEBytes 8 v.length ++ v)).flatten ++ extra)).length < v.length := by
      simp
    rw [if_neg hnotshort]
    have htakev : (v ++
        ((vs.map (fun v => toLEBytes 8 v.length ++ v)).flatten ++ extra)).take v.length = v :=
      List.take_left _ _
    have hdropv : (v ++
        ((vs.map (fun v => toLEBytes 8 v.length ++ v)).flatten ++ extra)).drop v.length =
        (vs.map (fun v => toLEBytes 8 v.length ++ v)).flatten ++ extra :=
      List.drop_left _ _
    rw [htakev, hdropv, ih extra (fun u hu => h u (List.mem_cons_of_mem _ hu))]
    rfl

/-- Round trip through the codec, tolerating arbitrary trailing bytes (the
page scanner hands `deserialize` a buffer with eight extra bytes). -/
theorem rowDeserialize_rowSerialize_append (r : RowV) (extra : List Nat)
    (h1 : r.values.length < 2 ^ 64)
    (h2 : ∀ v ∈ r.values, v.length < 2 ^ 64) :
    rowDeserialize (rowSerialize r ++ extra) = some r := by
  obtain ⟨values, deleted⟩ := r
  simp only [RowV.mk.injEq] at *
  have hlen8 : (toLEBytes 8 values.length).length = 8 := toLEBytes_length _ _
  have hbody :
      rowSerialize ⟨values, deleted⟩ ++ extra =
        (if deleted then 1 else 0) ::
          (toLEBytes 8 values.length ++
            ((values.map (fun v => toLEBytes 8 v.length ++ v)).flatten ++ extra)) := by
    simp [rowSerialize]
  rw [hbody, rowDeserialize]
  have hnotshort : ¬ (toLEBytes 8 values.length ++
      ((values.map (fun v => toLEBytes 8 v.length ++ v)).flatten ++ extra)).length < 8 := by
    simp [hlen8]
  rw [if_neg hnotshort]
  have htake : (toLEBytes 8 values.length ++
      ((values.map (fun v => toLEBytes 8 v.length ++ v)).flatten ++ extra)).take 8 =
      toLEBytes 8 values.length := by
    rw [← hlen8]; exact List.take_left _ _
  have hdrop : (toLEBytes 8 values.length ++
      ((values.map (fun v => toLEBytes 8 v.length ++ v)).flatten ++ extra)).drop 8 =
      (values.map (fun v => toLEBytes 8 v.length ++ v)).flatten ++ extra := by
    rw [← hlen8]; exact List.drop_left _ _
  simp only [htake, hdrop, fromLEBytes_toLEBytes8 h1,
    readFields_flatten values extra h2, Option.map_some']
  cases deleted <;> simp

/-- C1.  `Row::deserialize` applied to `Row::serialize(r)` yields `r` back:
same field values in the same order and the same tombstone bit.  The
hypotheses state that the field count and each field length fit in `size_t`,
which holds for every row a real machine can hold. -/
theorem c1_row_roundtrip (r : RowV)
    (h1 : r.values.length < 2 ^ 64)
    (h2 : ∀ v ∈ r.values, v.length < 2 ^ 64) :
    rowDeserialize (rowSerialize r) = some r := by
  have h := rowDeserialize_rowSerialize_append r [] h1 h2
  simpa using h

/-- C1 witness: the round trip evaluated on a concrete two-field tombstoned
row. -/
theorem c1_row_roundtrip_witness :
    rowDeserialize (rowSerialize ⟨[[49], [65, 66]], true⟩) =
      some ⟨[[49], [65, 66]], true⟩ :=
  c1_row_roundtrip ⟨[[49], [65, 66]], true⟩ (by decide)
    (by intro v hv; fin_cases hv <;> decide)

/-- C8.  The claim says deserialization never reads past the provided buffer
and fails with `MalformedRow` on truncated input.  The C++ source has no
failure path at all: it indexes `data[0]` and `memcpy`s eight bytes
unconditionally.  On the empty buffer, and on the 1-byte buffer `[0]` (a
tombstone byte with no field count following), the instrumented model shows
the source performs an out-of-bounds read (`none`). -/
theorem c8_deserialize_reads_out_of_bounds :
    rowDeserialize [] = none ∧ rowDeserialize [0] = none := by
  constructor <;> rfl

/-! ### Page: fixed 4096-byte buffer of length-prefixed row records -/

/-- Value of the `size_t` that `memcpy` reads at byte offset `pos` of a
buffer. -/
def readU64 (data : List Nat) (pos : Nat) : Nat :=
  fromLEBytes ((data.drop pos).take 8)

/-- Overwrite the bytes at offset `pos` (what consecutive `memcpy` calls into
`&data[pos]` do).  All uses in this development stay inside the buffer. -/
def writeBytes (data : List Nat) (pos : Nat) (bytes : List Nat) : List Nat :=
  data.take pos ++ bytes ++ data.drop (pos + bytes.length)

/-- A page: the 4096-byte buffer and the dirty flag.  The page id does not
take part in any claim and is omitted. -/
structure PageV where
  data : List Nat
  is_dirty : Bool
deriving DecidableEq, Repr

/-- A freshly constructed page: 4096 zero bytes, not dirty. -/
def pageNew : PageV := ⟨List.replicate 4096 0, false⟩

/-- Scan loop shared by `Page::insert_row`'s search for free space: walk
records from `pos` while `pos + sizeof(size_t) <= PAGE_SIZE`, stopping at a
zero length; otherwise skip `sizeof(size_t) + existing_row_len` bytes.  The
C++ `while` loop advances `pos` by at least 9 whenever it continues, so it
performs at most 456 iterations unless `size_t` overflow wraps `pos`; fuel
4096 covers every state reachable by `insert_row`. -/
def pageScanFree : Nat → List Nat → Nat → Nat
  | 0, _, pos => pos
  | fuel + 1, data, pos =>
    if pos + 8 ≤ 4096 then
      let len := readU64 data pos
      if len = 0 then pos
      else pageScanFree fuel data ((pos + 8 + len) % 2 ^ 64)
    else pos

/-- Translation of `Page::insert_row`: serialize, store the length
`row_bin.size() + sizeof(size_t)` followed by the row bytes at the first free
position, fail (`none`) when `pos + row_len > PAGE_SIZE`. -/
def pageInsertRow (p : PageV) (r : RowV) : Option PageV :=
  let bin := rowSerialize r
  let rowLen := (bin.length + 8) % 2 ^ 64
  let pos := pageScanFree 4096 p.data 0
  if 4096 < (pos + rowLen) % 2 ^ 64 then none
  else some ⟨writeBytes p.data pos (toLEBytes 8 rowLen ++ bin), true⟩

/-- Record-walk of `Page::get_rows`: read a length, extract that many bytes
as the row buffer (the stored length overshoots the serialized row by eight
bytes, so the slice carries the eight bytes that follow it), deserialize, and
keep the rows whose tombstone is clear.  `none` marks a slice or a
deserialization that would read out of bounds in the C++. -/
def pageGetRowsGo : Nat → List Nat → Nat → Option (List RowV)
  | 0, _, _ => some []
  | fuel + 1, data, pos =>
    if pos + 8 ≤ 4096 then
      let len := readU64 data pos
      if len = 0 then some []
      else
        let pos2 := (pos + 8) % 2 ^ 64
        if 4096 < pos2 + len then none
        else
          match rowDeserialize ((data.drop pos2).take len) with
          | none => none
          | some r =>
            (pageGetRowsGo fuel data ((pos2 + len) % 2 ^ 64)).map
              (fun rs => if r.is_deleted then rs else r :: rs)
    else some []

/-- Translation of `Page::get_rows`. -/
def pageGetRows (p : PageV) : Option (List RowV) :=
  pageGetRowsGo 4096 p.data 0

/-- Insert a sequence of rows in order, failing as soon as one insertion
fails (each C++ `insert_row` call leaves the page untouched on failure). -/
def pageInsertAll (rs : List RowV) (p : PageV) : Option PageV :=
  match rs with
  | [] => some p
  | r :: rest =>
    match pageInsertRow p r with
    | none => none
    | some p2 => pageInsertAll rest p2

/-- Serialized size of a row. -/
def rowSz (r : RowV) : Nat := (rowSerialize r).length

/-- The bytes a stored record occupies as the scan loops see it: the 8-byte
length prefix, the serialized row, and the 8-byte gap that the overshooting
stored length makes both loops skip (those bytes are never written and stay
zero). -/
def recordBytes (r : RowV) : List Nat :=
  toLEBytes 8 (rowSz r + 8) ++ rowSerialize r ++ List.replicate 8 0

/-- Concatenated records of the rows inserted so far. -/
def pageLayout (rs : List RowV) : List Nat := (rs.map recordBytes).flatten

/-- Page data after inserting `rs` into a fresh page: the records followed by
the untouched zero tail. -/
def pageDataOf (rs : List RowV) : List Nat :=
  pageLayout rs ++ List.replicate (4096 - (pageLayout rs).length) 0

theorem rowSz_eq (r : RowV) :
    rowSz r = 9 + (r.values.map (fun v => 8 + v.length)).sum := by
  simp only [rowSz, rowSerialize, List.length_cons, List.length_append,
    toLEBytes_length, List.length_flatten, List.map_map]
  have h : (List.map (List.length ∘ fun v => toLEBytes 8 v.length ++ v) r.values) =
      (List.map (fun v => 8 + v.length) r.values) := by
    apply List.map_congr_left
    intro v _
    simp [toLEBytes_length]
  rw [h]; omega

theorem rowSz_ge_nine (r : RowV) : 9 ≤ rowSz r := by
  rw [rowSz_eq]; omega

theorem recordBytes_length (r : RowV) :
    (recordBytes r).length = rowSz r + 16 := by
  simp only [recordBytes, List.length_append, toLEBytes_length,
    List.length_replicate, rowSz]
  omega

theorem pageLayout_length (rs : List RowV) :
    (pageLayout rs).length = (rs.map (fun r => rowSz r + 16)).sum := by
  simp only [pageLayout, List.length_flatten, List.map_map]
  congr 1
  apply List.map_congr_left
  intro r _
  exact recordBytes_length r

theorem pageLayout_append (rs1 rs2 : List RowV) :
    pageLayout (rs1 ++ rs2) = pageLayout rs1 ++ pageLayout rs2 := by
  simp [pageLayout]

theorem length_le_pageLayout_length (rs : List RowV) :
    rs.length ≤ (pageLayout rs).length := by
  rw [pageLayout_length]
  induction rs with
  | nil => simp
  | cons r rs ih => simp only [List.map_cons, List.sum_cons, List.length_cons]; omega

theorem fromLEBytes_replicate_zero (k : Nat) :
    fromLEBytes (List.replicate k 0) = 0 := by
  induction k with
  | zero => rfl
  | succ k ih => simpa [fromLEBytes, List.replicate] using ih

/-- Bounds on field count and lengths forced by a serialized size that fits a
page. -/
theorem rowSz_bounds (r : RowV) (h : rowSz r ≤ 4096) :
    r.values.length < 2 ^ 64 ∧ ∀ v ∈ r.values, v.length < 2 ^ 64 := by
  rw [rowSz_eq] at h
  have hcount : ∀ (l : List (List Nat)),
      8 * l.length ≤ (l.map (fun v => 8 + v.length)).sum := by
    intro l
    induction l with
    | nil => simp
    | cons v l ih => simp only [List.map_cons, List.sum_cons, List.length_cons]; omega
  constructor
  · have := hcount r.values
    have : 8 * r.values.length ≤ 4096 := by omega
    omega
  · intro v hv
    have hmem : (8 + v.length) ∈ r.values.map (fun v => 8 + v.length) :=
      List.mem_map_of_mem _ hv
    have := List.single_le_sum (l := r.values.map (fun v => 8 + v.length))
      (fun x _ => Nat.zero_le x) _ hmem
    omega

/-- The free-space scan over a well-formed page returns the offset just past
the last record. -/
theorem pageScanFree_layout : ∀ (rs : List RowV) (fuel : Nat) (pre : List Nat) (m : Nat),
    rs.length < fuel → 8 ≤ m →
    pre.length + (pageLayout rs).length + m = 4096 →
    pageScanFree fuel (pre ++ (pageLayout rs ++ List.replicate m 0)) pre.length =
      pre.length + (pageLayout rs).length := by
  intro rs
  induction rs with
  | nil =>
    intro fuel pre m hfuel hm hsz
    match fuel, hfuel with
    | fuel + 1, _ =>
      rw [pageScanFree]
      have hguard : pre.length + 8 ≤ 4096 := by
        simp only [pageLayout, List.map_nil, List.flatten_nil] at hsz ⊢
        omega
      rw [if_pos hguard]
      have hzero : readU64 (pre ++ (pageLayout [] ++ List.replicate m 0)) pre.length = 0 := by
        simp only [pageLayout, List.map_nil, List.flatten_nil, List.nil_append]
        unfold readU64
        rw [List.drop_left, List.take_replicate, Nat.min_def, if_pos hm]
        exact fromLEBytes_replicate_zero 8
      rw [hzero]
      simp [pageLayout]
  | cons r rs ih =>
    intro fuel pre m hfuel hm hsz
    match fuel, hfuel with
    | fuel + 1, hfuel =>
      simp only [List.length_cons] at hfuel
      have hlay : pageLayout (r :: rs) = recordBytes r ++ pageLayout rs := by
        simp [pageLayout]
      rw [hlay] at hsz ⊢
      have hrec := recordBytes_length r
      have hszr : rowSz r + 16 ≤ 4096 := by
        have := (pageLayout rs).length
        simp only [List.length_append] at hsz
        omega
      rw [pageScanFree]
      have hguard : pre.length + 8 ≤ 4096 := by
        simp only [List.length_append] at hsz
        omega
      rw [if_pos hguard]
      have hread : readU64 (pre ++ (recordBytes r ++ pageLayout rs ++ List.replicate m 0))
          pre.length = rowSz r + 8 := by
        unfold readU64
        rw [List.drop_left]
        have hre : recordBytes r ++ pageLayout rs ++ List.replicate m 0 =
            toLEBytes 8 (rowSz r + 8) ++
              (rowSerialize r ++ List.replicate 8 0 ++ pageLayout rs ++ List.replicate m 0) := by
          simp [recordBytes]
        rw [hre, take_append_len _ _ (toLEBytes_length 8 (rowSz r + 8))]
        exact fromLEBytes_toLEBytes8 (by omega)
      rw [hread]
      have hne : ¬ (rowSz r + 8 = 0) := by omega
      rw [if_neg hne]
      have hmod : (pre.length + 8 + (rowSz r + 8)) % 2 ^ 64 =
          pre.length + (rowSz r + 16) := by
        have : pre.length + 8 + (rowSz r + 8) < 2 ^ 64 := by
          simp only [List.length_append] at hsz
          have h64 : (4096 : Nat) + 4096 < 2 ^ 64 := by norm_num
          omega
        rw [Nat.mod_eq_of_lt this]; omega
      rw [hmod]
      have hregroup : pre ++ (recordBytes r ++ pageLayout rs ++ List.replicate m 0) =
          (pre ++ recordBytes r) ++ (pageLayout rs ++ List.replicate m 0) := by
        simp [List.append_assoc]
      rw [hregroup]
      have hlen2 : (pre ++ recordBytes r).length = pre.length + (rowSz r + 16) := by
        rw [List.length_append, hrec]
      rw [← hlen2]
      have := ih fuel (pre ++ recordBytes r) m (by omega) hm
        (by rw [hlen2]; simp only [List.length_append] at hsz ⊢; omega)
      rw [this, hlen2]
      simp only [List.length_append, hrec]
      omega

/-- One `insert_row` into a page holding the records of `rs` (with room to
spare) appends one record. -/
theorem pageInsertRow_layout (rs : List RowV) (r : RowV) (d : Bool)
    (h : (pageLayout (rs ++ [r])).length ≤ 4088) :
    pageInsertRow ⟨pageDataOf rs, d⟩ r = some ⟨pageDataOf (rs ++ [r]), true⟩ := by
  have hlay : pageLayout (rs ++ [r]) = pageLayout rs ++ recordBytes r :=
    pageLayout_append rs [r] ▸ (by simp [pageLayout])
  have hrec := recordBytes_length r
  have hlen : (pageLayout (rs ++ [r])).length =
      (pageLayout rs).length + (rowSz r + 16) := by
    rw [hlay, List.length_append, hrec]
  have hL : (pageLayout rs).length + (rowSz r + 16) ≤ 4088 := by rw [← hlen]; exact h
  have hfuel : rs.length < 4096 := by
    have := length_le_pageLayout_length rs
    omega
  have hm : 8 ≤ 4096 - (pageLayout rs).length := by omega
  have hscan : pageScanFree 4096 (pageDataOf rs) 0 = (pageLayout rs).length := by
    have := pageScanFree_layout rs 4096 [] (4096 - (pageLayout rs).length)
      (by omega) hm (by simp; omega)
    simpa [pageDataOf] using this
  unfold pageInsertRow
  rw [hscan]
  have hsz64 : rowSz r + 8 < 2 ^ 64 := by
    have h64 : (4096 : Nat) + 4096 < 2 ^ 64 := by norm_num
    omega
  have hrl : ((rowSerialize r).length + 8) % 2 ^ 64 = rowSz r + 8 := by
    rw [← rowSz]
    exact Nat.mod_eq_of_lt hsz64
  simp only [hrl]
  have hfit : ((pageLayout rs).length + (rowSz r + 8)) % 2 ^ 64 =
      (pageLayout rs).length + (rowSz r + 8) := by
    apply Nat.mod_eq_of_lt
    have h64 : (4096 : Nat) + 4096 < 2 ^ 64 := by norm_num
    omega
  rw [hfit, if_neg (by omega)]
  have hbyteslen : (toLEBytes 8 (rowSz r + 8) ++ rowSerialize r).length = 8 + rowSz r := by
    rw [List.length_append, toLEBytes_length]
    rw [rowSz]
  have hmain : writeBytes (pageDataOf rs) (pageLayout rs).length
      (toLEBytes 8 (rowSz r + 8) ++ rowSerialize r) = pageDataOf (rs ++ [r]) := by
    unfold writeBytes pageDataOf
    rw [hbyteslen]
    rw [take_append_len _ _ rfl]
    rw [drop_append_add, List.drop_replicate]
    rw [hlen, hlay]
    have hsplit : 4096 - (pageLayout rs).length - (8 + rowSz r) =
        8 + (4096 - ((pageLayout rs).length + (rowSz r + 16))) := by omega
    rw [hsplit, List.replicate_add]
    simp [recordBytes, List.append_assoc]
  rw [hmain]

/-- Inserting each row of a sequence into a fresh page succeeds and lays the
records down in order, provided the records fit. -/
theorem pageInsertAll_layout : ∀ (rs acc : List RowV) (d : Bool),
    (pageLayout (acc ++ rs)).length ≤ 4088 →
    pageInsertAll rs ⟨pageDataOf acc, d⟩ =
      some ⟨pageDataOf (acc ++ rs), if rs.isEmpty then d else true⟩ := by
  intro rs
  induction rs with
  | nil => intro acc d _; simp [pageInsertAll]
  | cons r rest ih =>
    intro acc d h
    have hkey : acc ++ r :: rest = (acc ++ [r]) ++ rest := by simp
    have hlen1 : (pageLayout (acc ++ r :: rest)).length =
        (pageLayout (acc ++ [r])).length + (pageLayout rest).length := by
      rw [hkey, pageLayout_append, List.length_append]
    have hmono : (pageLayout (acc ++ [r])).length ≤ 4088 := by omega
    rw [pageInsertAll, pageInsertRow_layout acc r d hmono]
    show pageInsertAll rest ⟨pageDataOf (acc ++ [r]), true⟩ =
      some ⟨pageDataOf (acc ++ r :: rest), if (r :: rest).isEmpty then d else true⟩
    rw [ih (acc ++ [r]) true (by rw [← hkey]; omega)]
    rw [← hkey]
    simp

/-- Walking a well-formed page returns exactly the stored rows whose
tombstone is clear, in record order. -/
theorem pageGetRowsGo_layout : ∀ (rs : List RowV) (fuel : Nat) (pre : List Nat) (m : Nat),
    rs.length < fuel → 8 ≤ m →
    pre.length + (pageLayout rs).length + m = 4096 →
    pageGetRowsGo fuel (pre ++ (pageLayout rs ++ List.replicate m 0)) pre.length =
      some (rs.filter (fun r => !r.is_deleted)) := by
  intro rs
  induction rs with
  | nil =>
    intro fuel pre m hfuel hm hsz
    match fuel, hfuel with
    | fuel + 1, _ =>
      rw [pageGetRowsGo]
      have hguard : pre.length + 8 ≤ 4096 := by
        simp only [pageLayout, List.map_nil, List.flatten_nil] at hsz
        omega
      rw [if_pos hguard]
      have hzero : readU64 (pre ++ (pageLayout [] ++ List.replicate m 0)) pre.length = 0 := by
        simp only [pageLayout, List.map_nil, List.flatten_nil, List.nil_append]
        unfold readU64
        rw [List.drop_left, List.take_replicate, Nat.min_def, if_pos hm]
        exact fromLEBytes_replicate_zero 8
      rw [hzero]
      simp
  | cons r rs ih =>
    intro fuel pre m hfuel hm hsz
    match fuel, hfuel with
    | fuel + 1, hfuel =>
      simp only [List.length_cons] at hfuel
      have hlay : pageLayout (r :: rs) = recordBytes r ++ pageLayout rs := by
        simp [pageLayout]
      rw [hlay] at hsz ⊢
      have hrec := recordBytes_length r
      have hszr : rowSz r + 16 ≤ 4096 := by
        simp only [List.length_append] at hsz
        omega
      have h64 : (4096 : Nat) + 4096 < 2 ^ 64 := by norm_num
      rw [pageGetRowsGo]
      have hguard : pre.length + 8 ≤ 4096 := by
        simp only [List.length_append] at hsz
        omega
      rw [if_pos hguard]
      have hread : readU64 (pre ++ (recordBytes r ++ pageLayout rs ++ List.replicate m 0))
          pre.length = rowSz r + 8 := by
        unfold readU64
        rw [List.drop_left]
        have hre : recordBytes r ++ pageLayout rs ++ List.replicate m 0 =
            toLEBytes 8 (rowSz r + 8) ++
              (rowSerialize r ++ List.replicate 8 0 ++ pageLayout rs ++ List.replicate m 0) := by
          simp [recordBytes]
        rw [hre, take_append_len _ _ (toLEBytes_length 8 (rowSz r + 8))]
        exact fromLEBytes_toLEBytes8 (by omega)
      rw [hread]
      rw [if_neg (by omega)]
      have hpos2 : (pre.length + 8) % 2 ^ 64 = pre.length + 8 := by
        apply Nat.mod_eq_of_lt
        omega
      simp only [hpos2]
      have hnoflow : ¬ (4096 < pre.length + 8 + (rowSz r + 8)) := by
        simp only [List.length_append] at hsz
        omega
      rw [if_neg hnoflow]
      have hslice : ((pre ++ (recordBytes r ++ pageLayout rs ++ List.replicate m 0)).drop
          (pre.length + 8)).take (rowSz r + 8) =
          rowSerialize r ++ List.replicate 8 0 := by
        have hre : pre ++ (recordBytes r ++ pageLayout rs ++ List.replicate m 0) =
            (pre ++ toLEBytes 8 (rowSz r + 8)) ++
              ((rowSerialize r ++ List.replicate 8 0) ++
                (pageLayout rs ++ List.replicate m 0)) := by
          simp [recordBytes, List.append_assoc]
        rw [hre]
        have hlen2 : (pre ++ toLEBytes 8 (rowSz r + 8)).length = pre.length + 8 := by
          rw [List.length_append, toLEBytes_length]
        rw [← hlen2, List.drop_left]
        have hlen3 : (rowSerialize r ++ List.replicate 8 0).length = rowSz r + 8 := by
          rw [List.length_append, List.length_replicate, rowSz]
        rw [← hlen3, List.take_left]
      rw [hslice]
      have hbounds := rowSz_bounds r (by omega)
      rw [rowDeserialize_rowSerialize_append r _ hbounds.1 hbounds.2]
      have hmod : (pre.length + 8 + (rowSz r + 8)) % 2 ^ 64 =
          pre.length + (rowSz r + 16) := by
        rw [Nat.mod_eq_of_lt (by simp only [List.length_append] at hsz; omega)]
        omega
      rw [hmod]
      have hregroup : pre ++ (recordBytes r ++ pageLayout rs ++ List.replicate m 0) =
          (pre ++ recordBytes r) ++ (pageLayout rs ++ List.replicate m 0) := by
        simp [List.append_assoc]
      rw [hregroup]
      have hlen2 : (pre ++ recordBytes r).length = pre.length + (rowSz r + 16) := by
        rw [List.length_append, hrec]
      rw [← hlen2]
      rw [ih fuel (pre ++ recordBytes r) m (by omega) hm
        (by rw [hlen2]; simp only [List.length_append] at hsz ⊢; omega)]
      rw [List.filter_cons]
      cases hdel : r.is_deleted <;> simp [hdel]

/-- C2 (amended).  From the all-zero page, if
`Σ (len(serialize(r)) + 2·size_of(len)) ≤ 4096 − size_of(len)` — each stored
record consumes `len + 16` bytes because both scan loops skip the stored
length `len + 8` plus another `sizeof(size_t)` — then inserting the rows of
`rs` in order succeeds for every row, and `get_rows` then returns exactly the
non-tombstoned rows of `rs` in insertion order. -/
theorem c2_insert_then_get_rows (rs : List RowV)
    (h : ((rs.map (fun r => (rowSerialize r).length + 16)).sum ≤ 4088)) :
    ∃ p, pageInsertAll rs pageNew = some p ∧
      pageGetRows p = some (rs.filter (fun r => !r.is_deleted)) := by
  have hlen : (pageLayout rs).length ≤ 4088 := by
    rw [pageLayout_length]
    have hsame : (rs.map (fun r => rowSz r + 16)).sum =
        (rs.map (fun r => (rowSerialize r).length + 16)).sum := rfl
    omega
  have hdata : pageDataOf [] = List.replicate 4096 0 := by
    unfold pageDataOf
    simp only [pageLayout, List.map_nil, List.flatten_nil, List.nil_append,
      List.length_nil, Nat.sub_zero]
  refine ⟨⟨pageDataOf rs, if rs.isEmpty then false else true⟩, ?_, ?_⟩
  · show pageInsertAll rs ⟨List.replicate 4096 0, false⟩ = _
    rw [← hdata]
    have hall := pageInsertAll_layout rs [] false
      (by rw [List.nil_append]; exact hlen)
    rw [hall, List.nil_append]
  · have hfuel : rs.length < 4096 := by
      have := length_le_pageLayout_length rs
      omega
    have hgo := pageGetRowsGo_layout rs 4096 [] (4096 - (pageLayout rs).length)
      hfuel (by omega) (by simp only [List.length_nil]; omega)
    rw [List.nil_append] at hgo
    simp only [List.length_nil] at hgo
    show pageGetRowsGo 4096 (pageDataOf rs) 0 = _
    rw [show pageDataOf rs =
      pageLayout rs ++ List.replicate (4096 - (pageLayout rs).length) 0 from rfl]
    exact hgo

/-- Concrete row with one 1330-byte field (serializes to 1347 bytes). -/
def cexRowA : RowV := ⟨[List.replicate 1330 97], false⟩

/-- Concrete row with one 1353-byte field (serializes to 1370 bytes). -/
def cexRowB : RowV := ⟨[List.replicate 1353 97], false⟩

/-- C2 counterexample.  The three rows satisfy the claim's bound
`Σ (len(serialize(r)) + size_of(len)) = 4088 ≤ 4096 − size_of(len)`, yet the
third `insert_row` call fails: each stored record actually consumes
`len + 2·size_of(len)` bytes because the scan skips the stored length (which
already includes one `size_of(len)`) plus the prefix size again. -/
theorem c2_claimed_bound_fails :
    ((([cexRowA, cexRowA, cexRowB]).map
        (fun r => (rowSerialize r).length + 8)).sum ≤ 4088) ∧
      pageInsertAll [cexRowA, cexRowA, cexRowB] pageNew = none := by
  constructor
  · decide
  · decide

/-- C2 witness: two small rows, one of them tombstoned, within the amended
bound; all inserts succeed and `get_rows` returns only the live row. -/
theorem c2_insert_then_get_rows_witness :
    ∃ p, pageInsertAll [⟨[[104, 105]], false⟩, ⟨[[106]], true⟩] pageNew = some p ∧
      pageGetRows p = some [⟨[[104, 105]], false⟩] := by
  have h := c2_insert_then_get_rows [⟨[[104, 105]], false⟩, ⟨[[106]], true⟩] (by decide)
  simpa using h

/-! ### Ordered string map, the shallow embedding of `std::map<std::string, V>`

`std::string` keys compare lexicographically on bytes (`char_traits<char>`
compares as `unsigned char`), and `std::map` keeps its entries sorted by that
order with unique keys.  The embedding is an association list kept sorted by
`lexLt`; `mapInsert` is `operator[]` assignment (overwrite or sorted insert),
`mapFind` is `find`, and the range scan below mirrors `lower_bound` followed
by iteration while `key <= max`. -/

/-- Lexicographic byte order on strings, `lhs < rhs`. -/
def lexLt : List Nat → List Nat → Bool
  | [], [] => false
  | [], _ :: _ => true
  | _ :: _, [] => false
  | a :: as, b :: bs => if a < b then true else if b < a then false else lexLt as bs

theorem lexLt_irrefl : ∀ a : List Nat, lexLt a a = false := by
  intro a
  induction a with
  | nil => rfl
  | cons x xs ih => simp [lexLt, ih]

theorem eq_of_not_lexLt : ∀ a b : List Nat,
    lexLt a b = false → lexLt b a = false → a = b := by
  intro a
  induction a with
  | nil =>
    intro b h1 _
    cases b with
    | nil => rfl
    | cons y ys => simp [lexLt] at h1
  | cons x xs ih =>
    intro b h1 h2
    cases b with
    | nil => simp [lexLt] at h2
    | cons y ys =>
      simp only [lexLt] at h1 h2
      by_cases hxy : x < y
      · simp [hxy] at h1
      · by_cases hyx : y < x
        · simp [hxy, hyx] at h2
        · have hxe : x = y := by omega
          subst hxe
          simp only [lt_irrefl, if_false] at h1 h2
          rw [ih ys h1 h2]

theorem lexLt_trans : ∀ a b c : List Nat,
    lexLt a b = true → lexLt b c = true → lexLt a c = true := by
  intro a
  induction a with
  | nil =>
    intro b c h1 h2
    cases b with
    | nil => simp [lexLt] at h1
    | cons y ys =>
      cases c with
      | nil => simp [lexLt] at h2
      | cons z zs => rfl
  | cons x xs ih =>
    intro b c h1 h2
    cases b with
    | nil => simp [lexLt] at h1
    | cons y ys =>
      cases c with
      | nil => simp [lexLt] at h2
      | cons z zs =>
        simp only [lexLt] at h1 h2 ⊢
        by_cases hxy : x < y
        · by_cases hyz : y < z
          · have : x < z := by omega
            simp [this]
          · by_cases hzy : z < y
            · simp [hyz, hzy] at h2
            · have : y = z := by omega
              subst this
              simp [hxy]
        · by_cases hyx : y < x
          · simp [hxy, hyx] at h1
          · have hxe : x = y := by omega
            subst hxe
            simp only [lt_irrefl, if_false] at h1
            by_cases hyz : x < z
            · simp [hyz]
            · by_cases hzy : z < x
              · simp [hyz, hzy] at h2
              · have : x = z := by omega
                subst this
                simp only [lt_irrefl, if_false] at h2 ⊢
                exact ih ys zs h1 h2

theorem lexLt_asymm {a b : List Nat} (h : lexLt a b = true) : lexLt b a = false := by
  cases hlv : lexLt b a
  · rfl
  · have := lexLt_trans a b a h hlv
    rw [lexLt_irrefl] at this
    exact Bool.noConfusion this

/-- Sorted association list standing in for `std::map` with byte-string
keys. -/
abbrev MapL (α : Type) : Type := List (List Nat × α)

/-- Entry list of the map (exposed for statements). -/
def mapEntries {α : Type} (m : MapL α) : List (List Nat × α) := m

/-- Number of entries (`std::map::size`). -/
def mapSize {α : Type} (m : MapL α) : Nat := m.length

/-- Keys in storage order. -/
def mapKeys {α : Type} (m : MapL α) : List (List Nat) := m.map (fun e => e.1)

/-- The `std::map` ordering invariant: entries strictly ascending by key. -/
def MapSorted {α : Type} (m : MapL α) : Prop :=
  List.Pairwise (fun e1 e2 => lexLt e1.1 e2.1 = true) m

/-- `operator[]`-style insert-or-overwrite keeping the sorted order. -/
def mapInsert {α : Type} (k : List Nat) (v : α) : MapL α → MapL α
  | [] => [(k, v)]
  | e :: t =>
    if lexLt k e.1 then (k, v) :: e :: t
    else if k = e.1 then (k, v) :: t
    else e :: mapInsert k v t

/-- `std::map::find`, returning the mapped value. -/
def mapFind {α : Type} (k : List Nat) (m : MapL α) : Option α :=
  (m.find? (fun e => decide (e.1 = k))).map (fun e => e.2)

theorem mapFind_nil {α : Type} (k : List Nat) : mapFind (α := α) k [] = none := rfl

theorem mapFind_cons {α : Type} (k : List Nat) (e : List Nat × α) (t : MapL α) :
    mapFind k (e :: t) = if e.1 = k then some e.2 else mapFind k t := by
  by_cases h : e.1 = k
  · simp [mapFind, List.find?, h]
  · simp [mapFind, List.find?, h]

theorem mapInsert_nil {α : Type} (k : List Nat) (v : α) :
    mapInsert k v [] = [(k, v)] := rfl

theorem mapInsert_cons {α : Type} (k : List Nat) (v : α) (e : List Nat × α) (t : MapL α) :
    mapInsert k v (e :: t) =
      if lexLt k e.1 then (k, v) :: e :: t
      else if k = e.1 then (k, v) :: t
      else e :: mapInsert k v t := rfl

theorem mapFind_mapInsert {α : Type} (k2 k : List Nat) (v : α) : ∀ (m : MapL α),
    mapFind k2 (mapInsert k v m) =
      if k2 = k then some v else mapFind k2 m := by
  intro m
  induction m with
  | nil =>
    rw [mapInsert_nil, mapFind_cons, mapFind_nil]
    by_cases h : k2 = k
    · subst h; simp
    · rw [if_neg (fun hh : k = k2 => h hh.symm), if_neg h]
  | cons e t ih =>
    rw [mapInsert_cons]
    by_cases hlt : lexLt k e.1 = true
    · simp only [if_pos hlt]
      rw [mapFind_cons]
      by_cases h : k2 = k
      · subst h; simp
      · rw [if_neg (fun hh : k = k2 => h hh.symm), if_neg h]
    · simp only [if_neg hlt]
      by_cases heq : k = e.1
      · simp only [if_pos heq]
        rw [mapFind_cons, mapFind_cons]
        by_cases h : k2 = k
        · subst h; simp
        · have h1 : ¬ (k = k2) := fun hh => h hh.symm
          have h2 : ¬ (e.1 = k2) := by rw [← heq]; exact h1
          rw [if_neg h1, if_neg h2, if_neg h]
      · simp only [if_neg heq]
        rw [mapFind_cons, mapFind_cons, ih]
        by_cases he2 : e.1 = k2
        · have hne : ¬ (k2 = k) := by
            intro hh
            exact heq (hh.symm.trans he2.symm)
          rw [if_pos he2, if_neg hne, if_pos he2]
        · rw [if_neg he2, if_neg he2]

theorem mem_mapKeys_mapInsert {α : Type} (k2 k : List Nat) (v : α) : ∀ (m : MapL α),
    (k2 ∈ mapKeys (mapInsert k v m) ↔ k2 = k ∨ k2 ∈ mapKeys m) := by
  intro m
  induction m with
  | nil => simp [mapInsert_nil, mapKeys]
  | cons e t ih =>
    rw [mapInsert_cons]
    by_cases hlt : lexLt k e.1 = true
    · simp only [if_pos hlt]
      simp [mapKeys, List.mem_cons]
    · simp only [if_neg hlt]
      by_cases heq : k = e.1
      · simp only [if_pos heq]
        subst heq
        simp [mapKeys, List.mem_cons]
      · simp only [if_neg heq]
        simp only [mapKeys, List.map_cons, List.mem_cons] at ih ⊢
        rw [ih]
        tauto

/-- Keys of a sorted map are pairwise distinct. -/
theorem mapKeys_nodup {α : Type} {m : MapL α} (hs : MapSorted m) :
    (mapKeys m).Nodup := by
  have hp : (mapKeys m).Pairwise (fun a b => lexLt a b = true) :=
    List.pairwise_map.mpr hs
  exact hp.imp (fun {a b} h => by
    intro he
    subst he
    rw [lexLt_irrefl] at h
    exact Bool.noConfusion h)

/-- Strict order between two distinct keys with the first not less. -/
theorem lexLt_of_ne_of_not_lt {a b : List Nat}
    (hne : a ≠ b) (h : lexLt a b = false) : lexLt b a = true := by
  cases hv : lexLt b a
  · exact absurd (eq_of_not_lexLt a b h hv).symm (fun he => hne he.symm)
  · rfl

theorem mapInsert_sorted {α : Type} (k : List Nat) (v : α) : ∀ {m : MapL α},
    MapSorted m → MapSorted (mapInsert k v m) := by
  intro m
  induction m with
  | nil =>
    intro _
    rw [mapInsert_nil]
    unfold MapSorted
    exact List.pairwise_singleton _ _
  | cons e t ih =>
    intro hs
    have hcons := List.pairwise_cons.mp hs
    have hhead := hcons.1
    have htail : MapSorted t := hcons.2
    rw [mapInsert_cons]
    by_cases hlt : lexLt k e.1 = true
    · rw [if_pos hlt]
      refine List.pairwise_cons.mpr ⟨?_, hs⟩
      intro e2 he2
      rcases List.mem_cons.mp he2 with h | h
      · subst h; exact hlt
      · exact lexLt_trans _ _ _ hlt (hhead e2 h)
    · rw [if_neg hlt]
      by_cases heq : k = e.1
      · rw [if_pos heq]
        refine List.pairwise_cons.mpr ⟨?_, htail⟩
        intro e2 he2
        show lexLt k e2.1 = true
        rw [heq]
        exact hhead e2 he2
      · rw [if_neg heq]
        refine List.pairwise_cons.mpr ⟨?_, ih htail⟩
        intro e2 he2
        have hmem := (mem_mapKeys_mapInsert e2.1 k v t).mp
          (List.mem_map_of_mem _ he2)
        rcases hmem with hk | hkeys
        · show lexLt e.1 e2.1 = true
          rw [hk]
          exact lexLt_of_ne_of_not_lt heq (by simpa using hlt)
        · obtain ⟨e3, he3, hfst⟩ := List.mem_map.mp hkeys
          show lexLt e.1 e2.1 = true
          rw [← hfst]
          exact hhead e3 he3

/-! ### Primary and composite indexes of `StorageEngine` -/

/-- SQL data types of the engine. -/
inductive DataType
  | INT
  | STRING
  | DOUBLE
deriving DecidableEq, Repr

/-- Column metadata. -/
structure Column where
  name : List Nat
  type : DataType
  is_primary_key : Bool
deriving DecidableEq, Repr

/-- In-memory primary index of one table (`StorageEngine::TableIndex`). -/
structure TableIndex where
  enabled : Bool
  pk_index : Nat
  pk_to_row_values : MapL (List (List Nat))
deriving DecidableEq, Repr

/-- In-memory composite index of one table
(`StorageEngine::CompositeIndexInfo`; the snapshot/WAL file paths take part
in no claim and are omitted). -/
structure CompositeIndexInfo where
  enabled : Bool
  key_indices : List Nat
  key_to_row_values : MapL (List (List Nat))
deriving DecidableEq, Repr

/-- Position of the first primary-key column (the `for` loop of
`init_primary_index`). -/
def findPkIdx : List Column → Nat → Option Nat
  | [], _ => none
  | c :: rest, i => if c.is_primary_key then some i else findPkIdx rest (i + 1)

/-- Translation of `StorageEngine::init_primary_index`: scan the columns and
enable the index at the first primary-key column, else leave it disabled
with `pk_index = 0`.  The function also erases any composite index of the
table, so the composite state after it is `none`. -/
def init_primary_index (cols : List Column) : TableIndex :=
  match findPkIdx cols 0 with
  | some i => ⟨true, i, []⟩
  | none => ⟨false, 0, []⟩

/-- Composite-key building loop shared by `insert_index_row` and
`rebuild_and_save_composite_index`: concatenate the row's values at the
declared column positions separated by the byte `0x1F`; an out-of-range
position clears the key and breaks. -/
def buildCKeyGo (row : List (List Nat)) : List Nat → Bool → List Nat → List Nat
  | [], _, acc => acc
  | i :: rest, first, acc =>
    if row.length ≤ i then []
    else buildCKeyGo row rest false (acc ++ (if first then [] else [31]) ++ row.getD i [])

/-- Composite key of a row. -/
def buildCKey (indices : List Nat) (row : List (List Nat)) : List Nat :=
  buildCKeyGo row indices true []

/-- Composite-index maintenance step inside `insert_index_row`: when a
composite index exists, is enabled, has declared columns, and the built key
is non-empty, upsert the row under that key (the WAL append mutates no
in-memory state and is omitted). -/
def compositeUpsert (cidx : Option CompositeIndexInfo) (row : List (List Nat)) :
    Option CompositeIndexInfo :=
  match cidx with
  | none => none
  | some info =>
    if info.enabled = false then some info
    else if info.key_indices.isEmpty then some info
    else
      let ckey := buildCKey info.key_indices row
      if ckey.isEmpty then some info
      else some { info with key_to_row_values := mapInsert ckey row info.key_to_row_values }

/-- Translation of `StorageEngine::insert_index_row` restricted to one table
(the table-name map lookups become the two state arguments): the primary
part returns early when the index is absent on guard failure, in which case
the composite maintenance does not run either. -/
def insert_index_row (idx : TableIndex) (cidx : Option CompositeIndexInfo)
    (row : List (List Nat)) : TableIndex × Option CompositeIndexInfo :=
  if idx.enabled = false then (idx, cidx)
  else if row.length ≤ idx.pk_index then (idx, cidx)
  else
    ({ idx with pk_to_row_values :=
        mapInsert (row.getD idx.pk_index []) row idx.pk_to_row_values },
      compositeUpsert cidx row)

/-- Translation of `StorageEngine::index_get_row_values` for one table. -/
def index_get_row_values (idx : TableIndex) (key : List Nat) :
    Option (List (List Nat)) :=
  if idx.enabled = false then none
  else mapFind key idx.pk_to_row_values

/-- Translation of `StorageEngine::index_range_row_values` for one table:
start at `lower_bound(min_key)` (first key not below `min_key`) and collect
values while `key <= max_key`. -/
def index_range_row_values (idx : TableIndex) (min_key max_key : List Nat) :
    List (List (List Nat)) :=
  if idx.enabled = false then []
  else ((idx.pk_to_row_values.dropWhile (fun e => lexLt e.1 min_key)).takeWhile
      (fun e => !(lexLt max_key e.1))).map (fun e => e.2)

/-- Row-fold of `rebuild_and_save_composite_index`: refill the composite map
from the primary-index entries, skipping rows whose built key is empty. -/
def rebuild_composite_map (indices : List Nat)
    (entries : MapL (List (List Nat))) : MapL (List (List Nat)) :=
  entries.foldl (fun m kv =>
    let ckey := buildCKey indices kv.2
    if ckey.isEmpty then m else mapInsert ckey kv.2 m) []

/-- `init_primary_index` followed by the `insert_index_row` calls that a
sequence of successful INSERTs issues for one table. -/
def applyInserts (cols : List Column) (rows : List (List (List Nat))) :
    TableIndex × Option CompositeIndexInfo :=
  rows.foldl (fun s row => insert_index_row s.1 s.2 row) (init_primary_index cols, none)

theorem insert_index_row_enabled (idx : TableIndex) (cidx : Option CompositeIndexInfo)
    (row : List (List Nat)) :
    ((insert_index_row idx cidx row).1).enabled = idx.enabled := by
  unfold insert_index_row
  by_cases h1 : idx.enabled = false
  · simp [h1]
  · by_cases h2 : row.length ≤ idx.pk_index
    · simp [h1, h2]
    · simp [h1, h2]

theorem insert_index_row_pk_index (idx : TableIndex) (cidx : Option CompositeIndexInfo)
    (row : List (List Nat)) :
    ((insert_index_row idx cidx row).1).pk_index = idx.pk_index := by
  unfold insert_index_row
  by_cases h1 : idx.enabled = false
  · simp [h1]
  · by_cases h2 : row.length ≤ idx.pk_index
    · simp [h1, h2]
    · simp [h1, h2]

theorem insert_index_row_map (idx : TableIndex) (cidx : Option CompositeIndexInfo)
    (row : List (List Nat)) (hen : idx.enabled = true)
    (hlt : idx.pk_index < row.length) :
    ((insert_index_row idx cidx row).1).pk_to_row_values =
      mapInsert (row.getD idx.pk_index []) row idx.pk_to_row_values := by
  unfold insert_index_row
  simp [hen, Nat.not_le.mpr hlt]

theorem insert_index_row_map_cases (idx : TableIndex) (cidx : Option CompositeIndexInfo)
    (row : List (List Nat)) :
    ((insert_index_row idx cidx row).1).pk_to_row_values = idx.pk_to_row_values ∨
    ((insert_index_row idx cidx row).1).pk_to_row_values =
      mapInsert (row.getD idx.pk_index []) row idx.pk_to_row_values := by
  unfold insert_index_row
  by_cases h1 : idx.enabled = false
  · simp [h1]
  · by_cases h2 : row.length ≤ idx.pk_index
    · simp [h1, h2]
    · simp [h1, h2]

theorem fold_enabled : ∀ (rows : List (List (List Nat))) (idx : TableIndex)
    (cidx : Option CompositeIndexInfo),
    ((rows.foldl (fun s row => insert_index_row s.1 s.2 row) (idx, cidx)).1).enabled =
      idx.enabled := by
  intro rows
  induction rows with
  | nil => intro idx cidx; rfl
  | cons r rest ih =>
    intro idx cidx
    rw [List.foldl_cons]
    rw [ih (insert_index_row idx cidx r).1 (insert_index_row idx cidx r).2]
    exact insert_index_row_enabled idx cidx r

theorem fold_pk_index : ∀ (rows : List (List (List Nat))) (idx : TableIndex)
    (cidx : Option CompositeIndexInfo),
    ((rows.foldl (fun s row => insert_index_row s.1 s.2 row) (idx, cidx)).1).pk_index =
      idx.pk_index := by
  intro rows
  induction rows with
  | nil => intro idx cidx; rfl
  | cons r rest ih =>
    intro idx cidx
    rw [List.foldl_cons]
    rw [ih (insert_index_row idx cidx r).1 (insert_index_row idx cidx r).2]
    exact insert_index_row_pk_index idx cidx r

theorem fold_sorted : ∀ (rows : List (List (List Nat))) (idx : TableIndex)
    (cidx : Option CompositeIndexInfo),
    MapSorted idx.pk_to_row_values →
    MapSorted ((rows.foldl (fun s row => insert_index_row s.1 s.2 row)
      (idx, cidx)).1.pk_to_row_values) := by
  intro rows
  induction rows with
  | nil => intro idx cidx hs; exact hs
  | cons r rest ih =>
    intro idx cidx hs
    rw [List.foldl_cons]
    have hnext : MapSorted ((insert_index_row idx cidx r).1).pk_to_row_values := by
      rcases insert_index_row_map_cases idx cidx r with h | h
      · rw [h]; exact hs
      · rw [h]; exact mapInsert_sorted _ _ hs
    exact ih (insert_index_row idx cidx r).1 (insert_index_row idx cidx r).2 hnext

/-- Lookup after a run of `insert_index_row` calls: the most recent matching
insertion wins; the prior map is consulted only when no inserted row has the
key. -/
theorem fold_find : ∀ (rows : List (List (List Nat))) (idx : TableIndex)
    (cidx : Option CompositeIndexInfo) (k : List Nat),
    idx.enabled = true → (∀ r ∈ rows, idx.pk_index < r.length) →
    mapFind k ((rows.foldl (fun s row => insert_index_row s.1 s.2 row)
        (idx, cidx)).1.pk_to_row_values) =
      (rows.reverse.find? (fun r => decide (r.getD idx.pk_index [] = k))).or
        (mapFind k idx.pk_to_row_values) := by
  intro rows
  induction rows with
  | nil => intro idx cidx k hen hlen; simp
  | cons r rest ih =>
    intro idx cidx k hen hlen
    rw [List.foldl_cons]
    have hen2 : ((insert_index_row idx cidx r).1).enabled = true := by
      rw [insert_index_row_enabled]; exact hen
    have hlen2 : ∀ r2 ∈ rest, ((insert_index_row idx cidx r).1).pk_index < r2.length := by
      intro r2 hr2
      rw [insert_index_row_pk_index]
      exact hlen r2 (List.mem_cons_of_mem _ hr2)
    have hih := ih (insert_index_row idx cidx r).1 (insert_index_row idx cidx r).2 k
      hen2 hlen2
    simp only [insert_index_row_pk_index] at hih
    rw [hih]
    rw [insert_index_row_map idx cidx r hen (hlen r (List.mem_cons_self _ _))]
    rw [mapFind_mapInsert]
    rw [List.reverse_cons, List.find?_append, Option.or_assoc]
    congr 1
    by_cases hpk : r.getD idx.pk_index [] = k
    · rw [if_pos hpk.symm,
        @List.find?_cons_of_pos _ (fun r2 => decide (r2.getD idx.pk_index [] = k)) r []
          (decide_eq_true hpk)]
      rfl
    · rw [if_neg (fun h => hpk h.symm),
        @List.find?_cons_of_neg _ (fun r2 => decide (r2.getD idx.pk_index [] = k)) r []
          (fun hcontra => hpk (of_decide_eq_true hcontra)),
        List.find?_nil, Option.none_or]

/-- Key membership after a run of `insert_index_row` calls. -/
theorem fold_keys : ∀ (rows : List (List (List Nat))) (idx : TableIndex)
    (cidx : Option CompositeIndexInfo) (k : List Nat),
    idx.enabled = true → (∀ r ∈ rows, idx.pk_index < r.length) →
    (k ∈ mapKeys ((rows.foldl (fun s row => insert_index_row s.1 s.2 row)
        (idx, cidx)).1.pk_to_row_values) ↔
      k ∈ rows.map (fun r => r.getD idx.pk_index []) ∨
        k ∈ mapKeys idx.pk_to_row_values) := by
  intro rows
  induction rows with
  | nil => intro idx cidx k hen hlen; simp
  | cons r rest ih =>
    intro idx cidx k hen hlen
    rw [List.foldl_cons]
    have hen2 : ((insert_index_row idx cidx r).1).enabled = true := by
      rw [insert_index_row_enabled]; exact hen
    have hlen2 : ∀ r2 ∈ rest, ((insert_index_row idx cidx r).1).pk_index < r2.length := by
      intro r2 hr2
      rw [insert_index_row_pk_index]
      exact hlen r2 (List.mem_cons_of_mem _ hr2)
    have hih := ih (insert_index_row idx cidx r).1 (insert_index_row idx cidx r).2 k
      hen2 hlen2
    simp only [insert_index_row_pk_index] at hih
    rw [hih]
    rw [insert_index_row_map idx cidx r hen (hlen r (List.mem_cons_self _ _))]
    rw [mem_mapKeys_mapInsert]
    simp only [List.map_cons, List.mem_cons]
    tauto

theorem findPkIdx_some : ∀ (cols : List Column) (j : Nat),
    (∃ c ∈ cols, c.is_primary_key = true) →
    ∃ i, findPkIdx cols j = some i ∧ i < j + cols.length := by
  intro cols
  induction cols with
  | nil =>
    rintro j ⟨c, hc, _⟩
    cases hc
  | cons a l ih =>
    rintro j ⟨c, hc, hpk⟩
    by_cases hpa : a.is_primary_key = true
    · refine ⟨j, ?_, ?_⟩
      · simp [findPkIdx, hpa]
      · simp only [List.length_cons]; omega
    · have hcl : c ∈ l := by
        rcases List.mem_cons.mp hc with h | h
        · exact absurd (h ▸ hpk) hpa
        · exact h
      obtain ⟨i, hfind, hlt⟩ := ih (j + 1) ⟨c, hcl, hpk⟩
      refine ⟨i, ?_, ?_⟩
      · simp [findPkIdx, hpa, hfind]
      · simp only [List.length_cons]; omega

/-- C3.  For a table whose schema has a primary-key column, after any finite
sequence of successful inserts (each inserted row has exactly `column_count`
values, which is what makes the insert succeed), the primary index holds
exactly one entry per distinct primary-key value inserted, and
`index_get_row_values` returns the most recently inserted row with the looked
up primary key (and `none` for keys never inserted). -/
theorem c3_primary_index_last_writer_wins (cols : List Column)
    (rows : List (List (List Nat)))
    (hpk : ∃ c ∈ cols, c.is_primary_key = true)
    (hlen : ∀ r ∈ rows, r.length = cols.length) :
    mapSize (applyInserts cols rows).1.pk_to_row_values =
      ((rows.map (fun r => r.getD (init_primary_index cols).pk_index [])).dedup).length ∧
    ∀ k, index_get_row_values (applyInserts cols rows).1 k =
      rows.reverse.find?
        (fun r => decide (r.getD (init_primary_index cols).pk_index [] = k)) := by
  obtain ⟨i, hfind, hilt⟩ := findPkIdx_some cols 0 hpk
  have hinit : init_primary_index cols = ⟨true, i, []⟩ := by
    unfold init_primary_index
    rw [hfind]
  have hen : (init_primary_index cols).enabled = true := by rw [hinit]
  have hpkidx : (init_primary_index cols).pk_index = i := by rw [hinit]
  have hlens : ∀ r ∈ rows, (init_primary_index cols).pk_index < r.length := by
    intro r hr
    rw [hpkidx, hlen r hr]
    omega
  have hmap0 : (init_primary_index cols).pk_to_row_values = [] := by rw [hinit]
  have hfolden : ((applyInserts cols rows).1).enabled = true := by
    unfold applyInserts
    rw [fold_enabled]
    exact hen
  constructor
  · have hsorted : MapSorted ((applyInserts cols rows).1.pk_to_row_values) := by
      unfold applyInserts
      apply fold_sorted
      rw [hmap0]
      exact List.Pairwise.nil
    have hnodupK : (mapKeys ((applyInserts cols rows).1.pk_to_row_values)).Nodup :=
      mapKeys_nodup hsorted
    have hnodupD : ((rows.map (fun r =>
        r.getD (init_primary_index cols).pk_index [])).dedup).Nodup :=
      List.nodup_dedup _
    have hmem : ∀ k, k ∈ mapKeys ((applyInserts cols rows).1.pk_to_row_values) ↔
        k ∈ (rows.map (fun r => r.getD (init_primary_index cols).pk_index [])).dedup := by
      intro k
      rw [List.mem_dedup]
      unfold applyInserts
      rw [fold_keys rows (init_primary_index cols) none k hen hlens]
      rw [hmap0]
      simp [mapKeys]
    have hperm := (List.perm_ext_iff_of_nodup hnodupK hnodupD).mpr hmem
    have hlenk := hperm.length_eq
    unfold mapSize
    rw [← hlenk]
    unfold mapKeys
    rw [List.length_map]
  · intro k
    unfold index_get_row_values
    rw [if_neg (by rw [hfolden]; exact Bool.noConfusion)]
    unfold applyInserts
    rw [fold_find rows (init_primary_index cols) none k hen hlens]
    rw [hmap0, mapFind_nil, Option.or_none]

/-- C3 witness: two columns with the second a primary key; three inserts, two
sharing pk `"1"`; the index has two entries and lookups return the most
recent rows. -/
theorem c3_primary_index_last_writer_wins_witness :
    mapSize (applyInserts
        [⟨[97], DataType.STRING, false⟩, ⟨[105], DataType.INT, true⟩]
        [[[120], [49]], [[121], [50]], [[122], [49]]]).1.pk_to_row_values = 2 ∧
      index_get_row_values (applyInserts
        [⟨[97], DataType.STRING, false⟩, ⟨[105], DataType.INT, true⟩]
        [[[120], [49]], [[121], [50]], [[122], [49]]]).1 [49] =
        some [[122], [49]] := by
  have h := c3_primary_index_last_writer_wins
    [⟨[97], DataType.STRING, false⟩, ⟨[105], DataType.INT, true⟩]
    [[[120], [49]], [[121], [50]], [[122], [49]]]
    ⟨⟨[105], DataType.INT, true⟩, by decide, rfl⟩
    (by intro r hr; fin_cases hr <;> rfl)
  refine ⟨?_, ?_⟩
  · rw [h.1]; decide
  · rw [h.2 [49]]; decide

/-- On a sorted map, `lower_bound(min)` followed by iteration while
`key <= max` visits exactly the entries whose key lies in the closed
interval. -/
theorem range_filter_of_sorted {α : Type} (lo hi : List Nat) : ∀ (m : MapL α),
    MapSorted m →
    (m.dropWhile (fun e => lexLt e.1 lo)).takeWhile (fun e => !(lexLt hi e.1)) =
      m.filter (fun e => !(lexLt e.1 lo) && !(lexLt hi e.1)) := by
  intro m
  induction m with
  | nil => intro _; rfl
  | cons e t ih =>
    intro hs
    have hcons := List.pairwise_cons.mp hs
    have hhead := hcons.1
    have htail : MapSorted t := hcons.2
    rw [List.dropWhile_cons, List.filter_cons]
    cases hlo : lexLt e.1 lo with
    | true =>
      rw [if_pos rfl]
      rw [if_neg (show ¬ (((!true && !(lexLt hi e.1))) = true) from by simp)]
      exact ih htail
    | false =>
      rw [if_neg (show ¬ ((false : Bool) = true) from Bool.noConfusion)]
      rw [List.takeWhile_cons]
      cases hhi : lexLt hi e.1 with
      | true =>
        rw [if_neg (show ¬ (((!(true : Bool))) = true) from by simp)]
        rw [if_neg (show ¬ (((!false && !(true : Bool))) = true) from by simp)]
        symm
        rw [List.filter_eq_nil_iff]
        intro x hx
        have hgt : lexLt hi x.1 = true := lexLt_trans _ _ _ hhi (hhead x hx)
        simp [hgt]
      | false =>
        rw [if_pos (show ((!(false : Bool))) = true from rfl)]
        rw [if_pos (show ((!false && !(false : Bool))) = true from rfl)]
        have hdt : t.dropWhile (fun e2 => lexLt e2.1 lo) = t := by
          cases t with
          | nil => rfl
          | cons x xs =>
            rw [List.dropWhile_cons]
            have hx : lexLt x.1 lo = false := by
              cases hv : lexLt x.1 lo with
              | false => rfl
              | true =>
                have hex : lexLt e.1 x.1 = true := hhead x (List.mem_cons_self _ _)
                have habs : lexLt e.1 lo = true := lexLt_trans _ _ _ hex hv
                rw [habs] at hlo
                exact Bool.noConfusion hlo
            rw [if_neg (show ¬ ((lexLt x.1 lo) = true) from by simp [hx])]
        have hih := ih htail
        rw [hdt] at hih
        rw [hih]

/-- C5.  For a table with an enabled primary index (the schema has a
primary-key column) and every key pair, `index_range_row_values` returns
exactly the rows of the index whose primary-key string `k` satisfies
`min ≤ k ≤ max` in lexicographic byte order (closed interval, stated with
`lexLt` as `¬(k < min) ∧ ¬(max < k)`), and the selected entries' keys are in
strictly ascending lexicographic order. -/
theorem c5_index_range_closed_interval (cols : List Column)
    (rows : List (List (List Nat))) (minK maxK : List Nat)
    (hpk : ∃ c ∈ cols, c.is_primary_key = true) :
    index_range_row_values (applyInserts cols rows).1 minK maxK =
      (((applyInserts cols rows).1.pk_to_row_values.filter
        (fun e => !(lexLt e.1 minK) && !(lexLt maxK e.1))).map (fun e => e.2)) ∧
    List.Pairwise (fun a b => lexLt a b = true)
      (((applyInserts cols rows).1.pk_to_row_values.filter
        (fun e => !(lexLt e.1 minK) && !(lexLt maxK e.1))).map (fun e => e.1)) := by
  obtain ⟨i, hfind, hilt⟩ := findPkIdx_some cols 0 hpk
  have hinit : init_primary_index cols = ⟨true, i, []⟩ := by
    unfold init_primary_index
    rw [hfind]
  have hfolden : ((applyInserts cols rows).1).enabled = true := by
    unfold applyInserts
    rw [fold_enabled, hinit]
  have hsorted : MapSorted ((applyInserts cols rows).1.pk_to_row_values) := by
    unfold applyInserts
    apply fold_sorted
    rw [hinit]
    exact List.Pairwise.nil
  constructor
  · unfold index_range_row_values
    rw [if_neg (by rw [hfolden]; exact Bool.noConfusion)]
    rw [range_filter_of_sorted minK maxK _ hsorted]
  · have hsub : ((applyInserts cols rows).1.pk_to_row_values.filter
        (fun e => !(lexLt e.1 minK) && !(lexLt maxK e.1))).Sublist
        ((applyInserts cols rows).1.pk_to_row_values) := List.filter_sublist _
    exact List.pairwise_map.mpr (List.Pairwise.sublist hsub hsorted)

/-- C5 witness: table with one INT primary-key column, inserts with keys
`"1"`, `"3"`, `"2"`; the closed range `["1","2"]` returns the rows keyed
`"1"` and `"2"` in ascending order. -/
theorem c5_index_range_closed_interval_witness :
    index_range_row_values (applyInserts [⟨[105], DataType.INT, true⟩]
        [[[49]], [[51]], [[50]]]).1 [49] [50] = [[[49]], [[50]]] := by
  have h := c5_index_range_closed_interval [⟨[105], DataType.INT, true⟩]
    [[[49]], [[51]], [[50]]] [49] [50]
    ⟨⟨[105], DataType.INT, true⟩, by decide, rfl⟩
  rw [h.1]
  decide

/-- The key shape the claim describes: the parts joined with the single byte
`U+001F` between consecutive parts. -/
def joinSep (parts : List (List Nat)) : List Nat :=
  match parts with
  | [] => []
  | p :: rest => p ++ (rest.map (fun q => 31 :: q)).flatten

theorem buildCKeyGo_all_in_range (row : List (List Nat)) :
    ∀ (indices : List Nat) (acc : List Nat),
    (∀ i ∈ indices, i < row.length) →
    buildCKeyGo row indices false acc =
      acc ++ (indices.map (fun i => 31 :: row.getD i [])).flatten := by
  intro indices
  induction indices with
  | nil => intro acc _; simp [buildCKeyGo]
  | cons i rest ih =>
    intro acc h
    have hi : i < row.length := h i (List.mem_cons_self _ _)
    rw [buildCKeyGo, if_neg (by omega)]
    rw [ih _ (fun j hj => h j (List.mem_cons_of_mem _ hj))]
    simp

theorem buildCKeyGo_out_of_range (row : List (List Nat)) :
    ∀ (indices : List Nat) (first : Bool) (acc : List Nat),
    (∃ i ∈ indices, row.length ≤ i) →
    buildCKeyGo row indices first acc = [] := by
  intro indices
  induction indices with
  | nil =>
    rintro first acc ⟨i, hi, _⟩
    cases hi
  | cons i rest ih =>
    rintro first acc ⟨j, hj, hle⟩
    by_cases hoor : row.length ≤ i
    · rw [buildCKeyGo, if_pos hoor]
    · rw [buildCKeyGo, if_neg hoor]
      apply ih
      rcases List.mem_cons.mp hj with h | h
      · exact absurd (h ▸ hle) hoor
      · exact ⟨j, h, hle⟩

/-- When every declared column position is in range, the built composite key
is the separator-join of the row's values at those positions. -/
theorem buildCKey_join (indices : List Nat) (row : List (List Nat))
    (h : ∀ i ∈ indices, i < row.length) :
    buildCKey indices row = joinSep (indices.map (fun i => row.getD i [])) := by
  cases indices with
  | nil => rfl
  | cons i rest =>
    unfold buildCKey
    rw [buildCKeyGo, if_neg (by
      have := h i (List.mem_cons_self _ _)
      omega)]
    rw [buildCKeyGo_all_in_range row rest _
      (fun j hj => h j (List.mem_cons_of_mem _ hj))]
    simp only [joinSep, List.map_cons, List.nil_append, List.map_map]
    rfl

/-- Exact characterization of the rows the composite maintenance skips: the
built key is empty iff the declared index list is empty, some declared index
is out of range of the row, or there is exactly one declared column and the
row's value there is empty. -/
theorem buildCKey_eq_nil_iff (indices : List Nat) (row : List (List Nat)) :
    buildCKey indices row = [] ↔
      indices = [] ∨ (∃ i ∈ indices, row.length ≤ i) ∨
        (∃ i, indices = [i] ∧ row.getD i [] = []) := by
  by_cases hoor : ∃ i ∈ indices, row.length ≤ i
  · constructor
    · intro _; exact Or.inr (Or.inl hoor)
    · intro _; exact buildCKeyGo_out_of_range row indices true [] hoor
  · have hin : ∀ i ∈ indices, i < row.length := by
      intro i hi
      by_contra hc
      exact hoor ⟨i, hi, by omega⟩
    rw [buildCKey_join indices row hin]
    match indices with
    | [] => simp [joinSep]
    | [i] =>
      simp only [List.map_cons, List.map_nil, joinSep, List.flatten_nil,
        List.append_nil]
      constructor
      · intro h
        exact Or.inr (Or.inr ⟨i, rfl, h⟩)
      · intro h
        rcases h with h | h | ⟨j, hj, hv⟩
        · exact absurd h (by simp)
        · exact absurd h hoor
        · have hij : i = j := by simpa using hj
          rw [hij]
          exact hv
    | i :: j :: rest =>
      constructor
      · intro h
        exfalso
        simp only [List.map_cons, joinSep, List.flatten_cons] at h
        rcases List.append_eq_nil.mp h with ⟨_, h2⟩
        rcases List.append_eq_nil.mp h2 with ⟨h3, _⟩
        exact List.cons_ne_nil _ _ h3
      · intro h
        exfalso
        rcases h with h | h | ⟨k, hk, _⟩
        · exact List.cons_ne_nil _ _ h
        · exact hoor h
        · injection hk with _ htl
          exact List.cons_ne_nil _ _ htl

theorem mem_mapInsert {α : Type} (e : List Nat × α) (k : List Nat) (v : α) :
    ∀ (m : MapL α), e ∈ mapInsert k v m → e = (k, v) ∨ e ∈ m := by
  intro m
  induction m with
  | nil =>
    intro h
    rw [mapInsert_nil] at h
    rcases List.mem_cons.mp h with h | h
    · exact Or.inl h
    · cases h
  | cons e2 t ih =>
    intro h
    rw [mapInsert_cons] at h
    by_cases hlt : lexLt k e2.1 = true
    · rw [if_pos hlt] at h
      rcases List.mem_cons.mp h with h | h
      · exact Or.inl h
      · exact Or.inr h
    · rw [if_neg hlt] at h
      by_cases heq : k = e2.1
      · rw [if_pos heq] at h
        rcases List.mem_cons.mp h with h | h
        · exact Or.inl h
        · exact Or.inr (List.mem_cons_of_mem _ h)
      · rw [if_neg heq] at h
        rcases List.mem_cons.mp h with h | h
        · exact Or.inr (List.mem_cons.mpr (Or.inl h))
        · rcases ih h with h2 | h2
          · exact Or.inl h2
          · exact Or.inr (List.mem_cons_of_mem _ h2)

/-- Every entry the back-fill of `rebuild_and_save_composite_index` produces
is keyed by the (non-empty) built composite key of its row. -/
theorem rebuild_composite_map_entries (indices : List Nat)
    (entries : MapL (List (List Nat))) :
    ∀ e ∈ rebuild_composite_map indices entries,
      buildCKey indices e.2 = e.1 ∧ e.1 ≠ [] := by
  have hgen : ∀ (es : MapL (List (List Nat))) (acc : MapL (List (List Nat))),
      (∀ e ∈ acc, buildCKey indices e.2 = e.1 ∧ e.1 ≠ []) →
      ∀ e ∈ es.foldl (fun m kv =>
        if (buildCKey indices kv.2).isEmpty then m
        else mapInsert (buildCKey indices kv.2) kv.2 m) acc,
        buildCKey indices e.2 = e.1 ∧ e.1 ≠ [] := by
    intro es
    induction es with
    | nil => intro acc hacc e he; exact hacc e he
    | cons kv rest ih =>
      intro acc hacc e he
      rw [List.foldl_cons] at he
      by_cases hemp : (buildCKey indices kv.2).isEmpty = true
      · rw [if_pos hemp] at he
        exact ih acc hacc e he
      · rw [if_neg hemp] at he
        refine ih _ ?_ e he
        intro e2 he2
        rcases mem_mapInsert e2 _ _ acc he2 with h | h
        · rw [h]
          refine ⟨rfl, ?_⟩
          intro hnil
          have hnil2 : buildCKey indices kv.2 = [] := hnil
          rw [hnil2] at hemp
          exact hemp rfl
        · exact hacc e2 h
  intro e he
  exact hgen entries [] (by intro e2 he2; cases he2) e he

/-- C7 counterexample.  Composite index over columns 0 and 1, and the primary
index enabled on column 0; inserting the row `["", "x"]` — whose first
participating value is the empty string — still adds a composite entry, keyed
`"\x1Fx"` (the separator makes the key non-empty), contradicting the claim
that such a row is not indexed. -/
theorem c7_empty_participant_still_indexed :
    (insert_index_row ⟨true, 0, []⟩ (some ⟨true, [0, 1], []⟩) [[], [120]]).2 =
      some ⟨true, [0, 1], [([31, 120], [[], [120]])]⟩ := by
  decide

theorem compositeUpsert_some (info : CompositeIndexInfo) (row : List (List Nat)) :
    compositeUpsert (some info) row =
      if info.enabled = false then some info
      else if info.key_indices.isEmpty = true then some info
      else if (buildCKey info.key_indices row).isEmpty = true then some info
      else some (CompositeIndexInfo.mk info.enabled info.key_indices
        (mapInsert (buildCKey info.key_indices row) row
          info.key_to_row_values)) := rfl

/-- C7 (amended).  Composite-index entries are keyed by
`join(row[i1], U+001F, row[i2], ...)`; a row is skipped exactly when the
built key is empty — some declared index out of range, no declared columns,
or a single declared column whose value is empty.  An empty participant
among two or more declared columns does not cause a skip.  Stated for both
the insert path (`insert_index_row`) and the back-fill path
(`rebuild_and_save_composite_index`). -/
theorem c7_composite_key_join_and_skip :
    (∀ (indices : List Nat) (row : List (List Nat)),
      (∀ i ∈ indices, i < row.length) →
      buildCKey indices row = joinSep (indices.map (fun i => row.getD i []))) ∧
    (∀ (indices : List Nat) (row : List (List Nat)),
      (buildCKey indices row = [] ↔
        indices = [] ∨ (∃ i ∈ indices, row.length ≤ i) ∨
          (∃ i, indices = [i] ∧ row.getD i [] = []))) ∧
    (∀ (idx : TableIndex) (info : CompositeIndexInfo) (row : List (List Nat)),
      idx.enabled = true → idx.pk_index < row.length →
      info.enabled = true → ¬ (info.key_indices = []) →
      (insert_index_row idx (some info) row).2 =
        some (CompositeIndexInfo.mk info.enabled info.key_indices
          (if buildCKey info.key_indices row = [] then info.key_to_row_values
            else mapInsert (buildCKey info.key_indices row) row
              info.key_to_row_values))) ∧
    (∀ (indices : List Nat) (entries : MapL (List (List Nat))),
      ∀ e ∈ rebuild_composite_map indices entries,
        buildCKey indices e.2 = e.1 ∧ e.1 ≠ []) := by
  refine ⟨buildCKey_join, buildCKey_eq_nil_iff, ?_, rebuild_composite_map_entries⟩
  intro idx info row hen hpk hcen hne
  unfold insert_index_row
  rw [if_neg (by rw [hen]; exact Bool.noConfusion), if_neg (by omega)]
  show compositeUpsert (some info) row = _
  rw [compositeUpsert_some]
  rw [if_neg (by rw [hcen]; exact Bool.noConfusion)]
  rw [if_neg (show ¬ (info.key_indices.isEmpty = true) from by
    cases hkv : info.key_indices
    · exact absurd hkv hne
    · exact Bool.noConfusion)]
  by_cases hempk : buildCKey info.key_indices row = []
  · rw [if_pos (show (buildCKey info.key_indices row).isEmpty = true from by
      rw [hempk]; rfl), if_pos hempk]
  · rw [if_neg (show ¬ ((buildCKey info.key_indices row).isEmpty = true) from by
      cases hkv : buildCKey info.key_indices row
      · exact absurd hkv hempk
      · exact Bool.noConfusion), if_neg hempk]

/-- C7 witness: composite index over columns 0 and 1; inserting
`["h", "i"]` adds the entry keyed `"h" ++ 0x1F ++ "i"`, matching the
separator-join, and the back-fill over one primary entry produces the same
key. -/
theorem c7_composite_key_join_and_skip_witness :
    buildCKey [0, 1] [[104], [105]] = joinSep [[104], [105]] ∧
    (insert_index_row ⟨true, 0, []⟩ (some ⟨true, [0, 1], []⟩) [[104], [105]]).2 =
      some ⟨true, [0, 1], [([104, 31, 105], [[104], [105]])]⟩ := by
  have h := c7_composite_key_join_and_skip
  constructor
  · have h1 := h.1 [0, 1] [[104], [105]] (by intro i hi; fin_cases hi <;> decide)
    rw [h1]
    decide
  · have h3 := h.2.2.1 ⟨true, 0, []⟩ ⟨true, [0, 1], []⟩ [[104], [105]]
      rfl (by decide) rfl (by decide)
    rw [h3]
    decide

/-! ### MVCC version chains -/

/-- One node of a version chain (`StorageEngine::VersionNode`); a chain is
the list of nodes from the head (newest) following `next`. -/
structure VersionNode where
  values : List (List Nat)
  xmin : List Nat
  xmax : Option (List Nat)
  committed : Bool
deriving DecidableEq, Repr

/-- The `mvcc_heads` map, `(table, pk) → head pointer`.  An entry holding the
empty chain is a present key whose head pointer is null (a successful
rollback of the only version leaves such an entry).  The claims touch only
per-key lookup and in-place update, for which the association-list order is
irrelevant, so a plain association list stands in for the `std::map`. -/
abbrev MvccHeads := List ((List Nat × List Nat) × List VersionNode)

/-- `mvcc_heads.find({table, pk})`. -/
def mvccFindChain (heads : MvccHeads) (table pk : List Nat) :
    Option (List VersionNode) :=
  (heads.find? (fun e => decide (e.1 = (table, pk)))).map (fun e => e.2)

/-- Replace the chain stored under `(table, pk)` (in-place node mutation or
head-pointer reassignment in the C++). -/
def mvccSetChain (heads : MvccHeads) (table pk : List Nat)
    (c : List VersionNode) : MvccHeads :=
  heads.map (fun e => if e.1 = (table, pk) then (e.1, c) else e)

/-- Translation of `StorageEngine::mvcc_commit_insert`: fail when no chain
exists for the key or the head is missing; otherwise the head must be
uncommitted with `xmin == txid`, and its committed bit is flipped.  The
returned pair is the C++ `bool` and the state after the call. -/
def mvcc_commit_insert (heads : MvccHeads) (table pk txid : List Nat) :
    Bool × MvccHeads :=
  match mvccFindChain heads table pk with
  | none => (false, heads)
  | some [] => (false, heads)
  | some (head :: rest) =>
    if head.xmin = txid ∧ head.committed = false then
      (true, mvccSetChain heads table pk
        (VersionNode.mk head.values head.xmin head.xmax true :: rest))
    else (false, heads)

/-- Translation of `StorageEngine::mvcc_rollback_insert`: same guard as
commit; on success the head node is unlinked and freed. -/
def mvcc_rollback_insert (heads : MvccHeads) (table pk txid : List Nat) :
    Bool × MvccHeads :=
  match mvccFindChain heads table pk with
  | none => (false, heads)
  | some [] => (false, heads)
  | some (head :: rest) =>
    if head.xmin = txid ∧ head.committed = false then
      (true, mvccSetChain heads table pk rest)
    else (false, heads)

/-- Visibility of one node for a reader, the loop body of
`mvcc_lookup_visible`: (a) uncommitted and created by the reader itself, or
(b) committed, not deleted, and its creator not in the active set. -/
def nodeVisible (reader : List Nat) (active : List (List Nat))
    (n : VersionNode) : Bool :=
  if n.committed = false then decide (n.xmin = reader)
  else decide (n.xmax = none) && !(decide (n.xmin ∈ active))

/-- Chain walk of `mvcc_lookup_visible` (the `while (cur)` loop; membership
in `active_txids` is the C++ `std::find` call). -/
def mvccWalk (reader : List Nat) (active : List (List Nat)) :
    List VersionNode → Option (List (List Nat))
  | [] => none
  | n :: rest =>
    if n.committed = false then
      if n.xmin = reader then some n.values else mvccWalk reader active rest
    else
      if n.xmax = none ∧ ¬ (n.xmin ∈ active) then some n.values
      else mvccWalk reader active rest

/-- Translation of `StorageEngine::mvcc_lookup_visible`. -/
def mvcc_lookup_visible (heads : MvccHeads) (table pk reader : List Nat)
    (active : List (List Nat)) : Option (List (List Nat)) :=
  match mvccFindChain heads table pk with
  | none => none
  | some chain => mvccWalk reader active chain

theorem mvccWalk_eq_find? (reader : List Nat) (active : List (List Nat)) :
    ∀ (chain : List VersionNode),
    mvccWalk reader active chain =
      (chain.find? (nodeVisible reader active)).map (fun n => n.values) := by
  intro chain
  induction chain with
  | nil => rfl
  | cons n rest ih =>
    rw [mvccWalk]
    by_cases hc : n.committed = false
    · rw [if_pos hc]
      by_cases hx : n.xmin = reader
      · rw [if_pos hx]
        rw [List.find?_cons_of_pos _ (show nodeVisible reader active n = true from by
          unfold nodeVisible
          rw [if_pos hc]
          exact decide_eq_true hx)]
        rfl
      · rw [if_neg hx, ih]
        rw [List.find?_cons_of_neg _ (show ¬ (nodeVisible reader active n = true) from by
          unfold nodeVisible
          rw [if_pos hc]
          simp [hx])]
    · rw [if_neg hc]
      by_cases hv : n.xmax = none ∧ ¬ (n.xmin ∈ active)
      · rw [if_pos hv]
        rw [List.find?_cons_of_pos _ (show nodeVisible reader active n = true from by
          unfold nodeVisible
          rw [if_neg hc]
          simp [hv.1, hv.2])]
        rfl
      · rw [if_neg hv, ih]
        rw [List.find?_cons_of_neg _ (show ¬ (nodeVisible reader active n = true) from by
          unfold nodeVisible
          rw [if_neg hc]
          intro hcontra
          rw [Bool.and_eq_true] at hcontra
          refine hv ⟨of_decide_eq_true hcontra.1, ?_⟩
          intro hmem
          rw [decide_eq_true hmem] at hcontra
          exact Bool.noConfusion hcontra.2)]

/-- C4.  `mvcc_lookup_visible` returns the values of the first node of the
chain (walking from the head, newest first) that is (a) uncommitted with
`xmin` equal to the reader, or (b) committed with no `xmax` and `xmin` not in
the active set; it returns `none` exactly when no node of the chain
satisfies (a) or (b) — in particular when no chain exists for the key. -/
theorem c4_lookup_visible_first_match (heads : MvccHeads)
    (table pk reader : List Nat) (active : List (List Nat)) :
    (∀ chain, mvccFindChain heads table pk = some chain →
      mvcc_lookup_visible heads table pk reader active =
        (chain.find? (nodeVisible reader active)).map (fun n => n.values)) ∧
    (mvcc_lookup_visible heads table pk reader active = none ↔
      ∀ chain, mvccFindChain heads table pk = some chain →
        ∀ n ∈ chain, nodeVisible reader active n = false) := by
  constructor
  · intro chain hchain
    unfold mvcc_lookup_visible
    rw [hchain]
    exact mvccWalk_eq_find? reader active chain
  · cases hfc : mvccFindChain heads table pk with
    | none =>
      have hred : mvcc_lookup_visible heads table pk reader active = none := by
        unfold mvcc_lookup_visible
        rw [hfc]
      rw [hred]
      constructor
      · intro _ chain hchain
        exact Option.noConfusion hchain
      · intro _; rfl
    | some chain =>
      have hred : mvcc_lookup_visible heads table pk reader active =
          mvccWalk reader active chain := by
        unfold mvcc_lookup_visible
        rw [hfc]
      rw [hred, mvccWalk_eq_find? reader active chain]
      constructor
      · intro hnone chain2 hchain2 n hn
        have hc2 : chain2 = chain := by
          injection hchain2 with h
          exact h.symm
        subst hc2
        rw [Option.map_eq_none'] at hnone
        rw [List.find?_eq_none] at hnone
        have := hnone n hn
        cases hv : nodeVisible reader active n
        · rfl
        · exact absurd hv this
      · intro hall
        rw [Option.map_eq_none', List.find?_eq_none]
        intro n hn
        rw [hall chain rfl n hn]
        exact Bool.noConfusion

/-- C4 witness: a two-node chain whose head is an uncommitted insert of
another transaction; the reader sees the older committed version. -/
theorem c4_lookup_visible_first_match_witness :
    mvcc_lookup_visible
      [(([116], [49]), [⟨[[50]], [66], none, false⟩, ⟨[[49]], [67], none, true⟩])]
      [116] [49] [65] [[66]] = some [[49]] := by
  have h := (c4_lookup_visible_first_match
    [(([116], [49]), [⟨[[50]], [66], none, false⟩, ⟨[[49]], [67], none, true⟩])]
    [116] [49] [65] [[66]]).1
    [⟨[[50]], [66], none, false⟩, ⟨[[49]], [67], none, true⟩] rfl
  rw [h]
  decide

/-- C9.  Whenever `mvcc_commit_insert` or `mvcc_rollback_insert` returns
`false` — no chain for the key, a null head, an already committed head, or a
head created by a different transaction — the whole version-chain map is
left unchanged. -/
theorem c9_failed_commit_rollback_no_mutation (heads : MvccHeads)
    (table pk txid : List Nat) :
    ((mvcc_commit_insert heads table pk txid).1 = false →
      (mvcc_commit_insert heads table pk txid).2 = heads) ∧
    ((mvcc_rollback_insert heads table pk txid).1 = false →
      (mvcc_rollback_insert heads table pk txid).2 = heads) := by
  constructor
  · intro hfail
    cases hfc : mvccFindChain heads table pk with
    | none => simp [mvcc_commit_insert, hfc]
    | some c =>
      cases c with
      | nil => simp [mvcc_commit_insert, hfc]
      | cons hd rest =>
        by_cases hguard : hd.xmin = txid ∧ hd.committed = false
        · exfalso
          simp [mvcc_commit_insert, hfc, hguard] at hfail
        · simp [mvcc_commit_insert, hfc, hguard]
  · intro hfail
    cases hfc : mvccFindChain heads table pk with
    | none => simp [mvcc_rollback_insert, hfc]
    | some c =>
      cases c with
      | nil => simp [mvcc_rollback_insert, hfc]
      | cons hd rest =>
        by_cases hguard : hd.xmin = txid ∧ hd.committed = false
        · exfalso
          simp [mvcc_rollback_insert, hfc, hguard] at hfail
        · simp [mvcc_rollback_insert, hfc, hguard]

/-- C9 witness: committing with the wrong transaction id fails and leaves
the map untouched, as does rolling back an already committed head. -/
theorem c9_failed_commit_rollback_no_mutation_witness :
    (mvcc_commit_insert [(([116], [49]), [⟨[[49]], [66], none, false⟩])]
      [116] [49] [65]).2 =
      [(([116], [49]), [⟨[[49]], [66], none, false⟩])] ∧
    (mvcc_rollback_insert [(([116], [49]), [⟨[[49]], [66], none, true⟩])]
      [116] [49] [66]).2 =
      [(([116], [49]), [⟨[[49]], [66], none, true⟩])] := by
  constructor
  · exact (c9_failed_commit_rollback_no_mutation
      [(([116], [49]), [⟨[[49]], [66], none, false⟩])] [116] [49] [65]).1
      (by decide)
  · exact (c9_failed_commit_rollback_no_mutation
      [(([116], [49]), [⟨[[49]], [66], none, true⟩])] [116] [49] [66]).2
      (by decide)

/-! ### Filter with pushed-down conditions (`ExecutionEngine::filter_conditions`)

The numeric branch of `eval_cond` goes through `std::stod` and IEEE-754
`double` comparisons.  A `double` value is modelled by `DVal` (a finite
value is an exact rational; NaN and the infinities are explicit), and the
parse itself — which decimal strings convert, to which values, and when the
conversion throws — is a parameter `parse`; every theorem below holds for
every such function, hence in particular for the real `std::stod`. -/

/-- Value of a `double` as the comparison operators see it. -/
inductive DVal
  | nan
  | ninf
  | pinf
  | fin (q : ℚ)
deriving DecidableEq

/-- IEEE-754 `==` on doubles: false whenever either side is NaN. -/
def dEq : DVal → DVal → Bool
  | DVal.fin a, DVal.fin b => decide (a = b)
  | DVal.ninf, DVal.ninf => true
  | DVal.pinf, DVal.pinf => true
  | _, _ => false

/-- IEEE-754 `<` on doubles: false whenever either side is NaN. -/
def dLt : DVal → DVal → Bool
  | DVal.fin a, DVal.fin b => decide (a < b)
  | DVal.fin _, DVal.pinf => true
  | DVal.ninf, DVal.fin _ => true
  | DVal.ninf, DVal.pinf => true
  | _, _ => false

/-- IEEE-754 `<=` on doubles. -/
def dLe (a b : DVal) : Bool := dLt a b || dEq a b

/-- Translation of the `eval_cond` lambda of `filter_conditions`: numeric
comparison when both sides convert through `std::stod` (the `parse`
parameter; `none` models a thrown conversion), lexicographic byte comparison
of the strings otherwise; an unknown operator yields false in both
branches. -/
def eval_cond (parse : List Nat → Option DVal) (lhs op rhs : List Nat) : Bool :=
  match parse lhs, parse rhs with
  | some lnum, some rnum =>
    if op = [61] then dEq lnum rnum
    else if op = [62] then dLt rnum lnum
    else if op = [60] then dLt lnum rnum
    else if op = [62, 61] then dLe rnum lnum
    else if op = [60, 61] then dLe lnum rnum
    else if op = [33, 61] then !(dEq lnum rnum)
    else false
  | _, _ =>
    if op = [61] then decide (lhs = rhs)
    else if op = [62] then lexLt rhs lhs
    else if op = [60] then lexLt lhs rhs
    else if op = [62, 61] then !(lexLt lhs rhs)
    else if op = [60, 61] then !(lexLt rhs lhs)
    else if op = [33, 61] then decide (¬ lhs = rhs)
    else false

/-- Per-row condition loop of `filter_conditions`: `ok` starts true, an
out-of-range column index (negative or past the value vector) fails the row
and breaks, as does the first failing condition. -/
def row_passes (parse : List Nat → Option DVal) (vals : List (List Nat)) :
    List (Int × List Nat × List Nat) → Bool
  | [] => true
  | c :: rest =>
    if c.1 < 0 ∨ vals.length ≤ c.1.toNat then false
    else if eval_cond parse (vals.getD c.1.toNat []) c.2.1 c.2.2 = false then false
    else row_passes parse vals rest

/-- Translation of `ExecutionEngine::filter_conditions`, parametrized by the
scanned rows (the `seq_scan` output). -/
def filter_conditions (parse : List Nat → Option DVal) (all_rows : List RowV)
    (conditions : List (Int × List Nat × List Nat)) : List RowV :=
  if conditions.isEmpty then all_rows
  else all_rows.filter (fun row => row_passes parse row.values conditions)

/-- A single condition as the claim states it: the column index is in range
and the comparison holds. -/
def cond_holds (parse : List Nat → Option DVal) (vals : List (List Nat))
    (c : Int × List Nat × List Nat) : Bool :=
  decide (0 ≤ c.1) && decide (c.1.toNat < vals.length) &&
    eval_cond parse (vals.getD c.1.toNat []) c.2.1 c.2.2

theorem row_passes_eq_all (parse : List Nat → Option DVal)
    (vals : List (List Nat)) : ∀ (conds : List (Int × List Nat × List Nat)),
    row_passes parse vals conds = conds.all (cond_holds parse vals) := by
  intro conds
  induction conds with
  | nil => rfl
  | cons c rest ih =>
    rw [row_passes, List.all_cons]
    by_cases hrange : c.1 < 0 ∨ vals.length ≤ c.1.toNat
    · rw [if_pos hrange]
      have hch : cond_holds parse vals c = false := by
        unfold cond_holds
        rcases hrange with h | h
        · rw [decide_eq_false (show ¬ ((0:Int) ≤ c.1) from by omega)]
          simp
        · rw [decide_eq_false (show ¬ (c.1.toNat < vals.length) from by omega)]
          simp
      rw [hch]
      rfl
    · rw [if_neg hrange]
      push_neg at hrange
      by_cases hev : eval_cond parse (vals.getD c.1.toNat []) c.2.1 c.2.2 = false
      · rw [if_pos hev]
        have hch : cond_holds parse vals c = false := by
          unfold cond_holds
          rw [hev, Bool.and_false]
        rw [hch]
        rfl
      · rw [if_neg hev]
        have hev2 : eval_cond parse (vals.getD c.1.toNat []) c.2.1 c.2.2 = true := by
          cases hv : eval_cond parse (vals.getD c.1.toNat []) c.2.1 c.2.2
          · exact absurd hv hev
          · rfl
        have hch : cond_holds parse vals c = true := by
          unfold cond_holds
          rw [hev2, decide_eq_true (by omega : (0:Int) ≤ c.1),
            decide_eq_true (by omega : c.1.toNat < vals.length)]
          rfl
        rw [hch, ih, Bool.true_and]

/-- C6.  `filter_conditions` retains a row iff every condition holds for it:
a condition `(column_index, op, rhs)` holds when the index is in range of
the row's value vector and `eval_cond` accepts — numeric comparison when
both sides parse as numbers, lexicographic byte comparison otherwise — and
an out-of-range index makes the whole row fail.  Stated as: the retained
rows are exactly the filter by the conjunction of all conditions, for every
parse function (in particular the real `std::stod`). -/
theorem c6_filter_conditions_conjunction (parse : List Nat → Option DVal)
    (all_rows : List RowV) (conds : List (Int × List Nat × List Nat)) :
    filter_conditions parse all_rows conds =
      all_rows.filter (fun row => conds.all (cond_holds parse row.values)) := by
  unfold filter_conditions
  by_cases hemp : conds.isEmpty = true
  · rw [if_pos hemp]
    have hnil : conds = [] := by
      cases conds
      · rfl
      · exact Bool.noConfusion hemp
    subst hnil
    symm
    apply List.filter_eq_self.mpr
    intro a _
    rfl
  · rw [if_neg hemp]
    congr 1
    funext row
    exact row_passes_eq_all parse row.values conds

/-! ### Group-by with aggregation (`ExecutionEngine::group_by`)

Aggregation values are doubles; as in the filter section the `std::stod`
conversion is the `parse` parameter, and the double arithmetic of
SUM/AVG/MAX/MIN (accumulation, division, max/min selection) is a further
parameter `aggEval`, since IEEE-754 rounding is outside this embedding.  The
claim under verification concerns only which keys the aggregate map holds
and the COUNT value, none of which depend on `aggEval`.  COUNT stores
`static_cast<double>(bucket size)`, exact below 2^53, modelled as the exact
rational. -/

/-- Aggregate function names. -/
def strCOUNT : List Nat := [67, 79, 85, 78, 84]

/-- The byte string `"SUM"`. -/
def strSUM : List Nat := [83, 85, 77]

/-- The byte string `"AVG"`. -/
def strAVG : List Nat := [65, 86, 71]

/-- The byte string `"MAX"`. -/
def strMAX : List Nat := [77, 65, 88]

/-- The byte string `"MIN"`. -/
def strMIN : List Nat := [77, 73, 78]

/-- Column scan of `SystemCatalog::get_column_index`. -/
def findColIdx : List Column → List Nat → Nat → Option Nat
  | [], _, _ => none
  | c :: rest, nm, i => if c.name = nm then some i else findColIdx rest nm (i + 1)

/-- Translation of `SystemCatalog::get_column_index`. -/
def get_column_index (cols : List Column) (nm : List Nat) : Option Nat :=
  findColIdx cols nm 0

/-- Resolved group-column indices (unresolvable names are dropped). -/
def groupIndicesOf (cols : List Column) (group_columns : List (List Nat)) :
    List Nat :=
  group_columns.filterMap (get_column_index cols)

/-- Resolved `(column index, function name)` pairs (specs whose column name
does not resolve are dropped). -/
def aggIndicesOf (cols : List Column)
    (agg_functions : List (List Nat × List Nat)) : List (Nat × List Nat) :=
  agg_functions.filterMap
    (fun a => (get_column_index cols a.1).map (fun i => (i, a.2)))

/-- Group-key building loop: values at the group indices joined with `'|'`;
an out-of-range index contributes nothing (but the separator is still
appended), exactly as in the source. -/
def groupKeyGo (vals : List (List Nat)) : List Nat → Bool → List Nat → List Nat
  | [], _, acc => acc
  | i :: rest, first, acc =>
    groupKeyGo vals rest false (acc ++ (if first then [] else [124]) ++ vals.getD i [])

/-- Group key of one row. -/
def group_key (gIdx : List Nat) (vals : List (List Nat)) : List Nat :=
  groupKeyGo vals gIdx true []

/-- `groups[key].push_back(row)` on the ordered bucket map. -/
def mapAppend (k : List Nat) (r : RowV) : MapL (List RowV) → MapL (List RowV)
  | [] => [(k, [r])]
  | e :: t =>
    if lexLt k e.1 then (k, [r]) :: e :: t
    else if k = e.1 then (e.1, e.2 ++ [r]) :: t
    else e :: mapAppend k r t

/-- Bucketing loop of `group_by`: every scanned row is appended to the
bucket of its group key. -/
def groupsOf (gIdx : List Nat) (rows : List RowV) : MapL (List RowV) :=
  rows.foldl (fun m row => mapAppend (group_key gIdx row.values) row m) []

/-- Values of the aggregated column in a bucket that convert as numbers:
out-of-range rows are skipped, and rows whose value does not convert are
skipped (`parse` is `std::stod`, `none` a thrown conversion). -/
def aggValues (parse : List Nat → Option DVal) (grows : List RowV)
    (colIdx : Nat) : List DVal :=
  grows.filterMap (fun row =>
    if colIdx < row.values.length then parse (row.values.getD colIdx [])
    else none)

/-- One `(column, function)` step of the aggregate loop: COUNT stores the
bucket size unconditionally; SUM/AVG/MAX/MIN store an aggregate (computed by
`aggEval`, standing for the double arithmetic) only when at least one value
converted; an unknown function name stores nothing.  The map key is the
function name, as in `aggregates[func_name] = ...`. -/
def aggStep (parse : List Nat → Option DVal)
    (aggEval : List Nat → List DVal → DVal) (grows : List RowV)
    (m : MapL DVal) (ai : Nat × List Nat) : MapL DVal :=
  if ai.2 = strCOUNT then
    mapInsert ai.2 (DVal.fin (grows.length : ℚ)) m
  else
    if (aggValues parse grows ai.1).isEmpty then m
    else if ai.2 = strSUM ∨ ai.2 = strAVG ∨ ai.2 = strMAX ∨ ai.2 = strMIN then
      mapInsert ai.2 (aggEval ai.2 (aggValues parse grows ai.1)) m
    else m

/-- Aggregate map of one bucket. -/
def computeAggs (parse : List Nat → Option DVal)
    (aggEval : List Nat → List DVal → DVal)
    (aggIdx : List (Nat × List Nat)) (grows : List RowV) : MapL DVal :=
  aggIdx.foldl (aggStep parse aggEval grows) []

/-- Reconstruction of the group-key parts (split on `'|'`,
`group_columns.size()` parts).  The source's `substr` loop can throw
`std::out_of_range` when the key has fewer parts than group columns; the
model is total, and no claim touches this field. -/
def splitKeyParts : List Nat → Nat → List (List Nat)
  | _, 0 => []
  | key, n + 1 =>
    key.takeWhile (fun b => decide (¬ b = 124)) ::
      splitKeyParts ((key.dropWhile (fun b => decide (¬ b = 124))).drop 1) n

/-- Result record of `group_by` (`ExecutionEngine::GroupByResult`). -/
structure GroupByResult where
  group_keys : List (List Nat)
  aggregates : MapL DVal
deriving DecidableEq

/-- Translation of `ExecutionEngine::group_by`, parametrized by the scanned
rows: bucket the rows by group key, then emit one result per bucket in map
(key) order. -/
def group_by (parse : List Nat → Option DVal)
    (aggEval : List Nat → List DVal → DVal) (cols : List Column)
    (rows : List RowV) (group_columns : List (List Nat))
    (agg_functions : List (List Nat × List Nat)) : List GroupByResult :=
  if rows.isEmpty then []
  else
    (groupsOf (groupIndicesOf cols group_columns) rows).map
      (fun kv => GroupByResult.mk (splitKeyParts kv.1 group_columns.length)
        (computeAggs parse aggEval (aggIndicesOf cols agg_functions) kv.2))

theorem aggStep_find_isSome (parse : List Nat → Option DVal)
    (aggEval : List Nat → List DVal → DVal) (grows : List RowV)
    (m : MapL DVal) (ai : Nat × List Nat) (fn : List Nat) :
    (mapFind fn (aggStep parse aggEval grows m ai)).isSome = true ↔
      (ai.2 = fn ∧ (ai.2 = strCOUNT ∨
        ((aggValues parse grows ai.1).isEmpty = false ∧
          (ai.2 = strSUM ∨ ai.2 = strAVG ∨ ai.2 = strMAX ∨ ai.2 = strMIN)))) ∨
      (mapFind fn m).isSome = true := by
  unfold aggStep
  by_cases hc : ai.2 = strCOUNT
  · rw [if_pos hc, mapFind_mapInsert]
    by_cases hfn : fn = ai.2
    · rw [if_pos hfn]
      constructor
      · intro _
        exact Or.inl ⟨hfn.symm, Or.inl hc⟩
      · intro _; rfl
    · rw [if_neg hfn]
      constructor
      · intro h; exact Or.inr h
      · intro h
        rcases h with ⟨h1, _⟩ | h
        · exact absurd h1.symm hfn
        · exact h
  · rw [if_neg hc]
    by_cases hemp : (aggValues parse grows ai.1).isEmpty = true
    · rw [if_pos hemp]
      constructor
      · intro h; exact Or.inr h
      · intro h
        rcases h with ⟨h1, h2⟩ | h
        · rcases h2 with h2 | ⟨h3, _⟩
          · exact absurd h2 hc
          · rw [hemp] at h3
            exact Bool.noConfusion h3
        · exact h
    · rw [if_neg hemp]
      by_cases h4 : ai.2 = strSUM ∨ ai.2 = strAVG ∨ ai.2 = strMAX ∨ ai.2 = strMIN
      · rw [if_pos h4, mapFind_mapInsert]
        by_cases hfn : fn = ai.2
        · rw [if_pos hfn]
          constructor
          · intro _
            refine Or.inl ⟨hfn.symm, Or.inr ⟨?_, h4⟩⟩
            cases hv : (aggValues parse grows ai.1).isEmpty
            · rfl
            · exact absurd hv hemp
          · intro _; rfl
        · rw [if_neg hfn]
          constructor
          · intro h; exact Or.inr h
          · intro h
            rcases h with ⟨h1, _⟩ | h
            · exact absurd h1.symm hfn
            · exact h
      · rw [if_neg h4]
        constructor
        · intro h; exact Or.inr h
        · intro h
          rcases h with ⟨h1, h2⟩ | h
          · rcases h2 with h2 | ⟨_, h3⟩
            · exact absurd h2 hc
            · exact absurd h3 h4
          · exact h

theorem computeAggs_find_isSome (parse : List Nat → Option DVal)
    (aggEval : List Nat → List DVal → DVal) (grows : List RowV) :
    ∀ (aggIdx : List (Nat × List Nat)) (m : MapL DVal) (fn : List Nat),
    (mapFind fn (aggIdx.foldl (aggStep parse aggEval grows) m)).isSome = true ↔
      (∃ ai ∈ aggIdx, ai.2 = fn ∧ (ai.2 = strCOUNT ∨
        ((aggValues parse grows ai.1).isEmpty = false ∧
          (ai.2 = strSUM ∨ ai.2 = strAVG ∨ ai.2 = strMAX ∨ ai.2 = strMIN)))) ∨
      (mapFind fn m).isSome = true := by
  intro aggIdx
  induction aggIdx with
  | nil => intro m fn; simp
  | cons ai rest ih =>
    intro m fn
    rw [List.foldl_cons, ih (aggStep parse aggEval grows m ai) fn,
      aggStep_find_isSome]
    constructor
    · intro h
      rcases h with ⟨ai2, hmem, hcond⟩ | hin | hm
      · exact Or.inl ⟨ai2, List.mem_cons_of_mem _ hmem, hcond⟩
      · exact Or.inl ⟨ai, List.mem_cons_self _ _, hin⟩
      · exact Or.inr hm
    · intro h
      rcases h with ⟨ai2, hmem, hcond⟩ | hm
      · rcases List.mem_cons.mp hmem with heq | hmem2
        · subst heq
          exact Or.inr (Or.inl hcond)
        · exact Or.inl ⟨ai2, hmem2, hcond⟩
      · exact Or.inr (Or.inr hm)

theorem aggStep_find_count (parse : List Nat → Option DVal)
    (aggEval : List Nat → List DVal → DVal) (grows : List RowV)
    (m : MapL DVal) (ai : Nat × List Nat) :
    mapFind strCOUNT (aggStep parse aggEval grows m ai) =
      if ai.2 = strCOUNT then some (DVal.fin (grows.length : ℚ))
      else mapFind strCOUNT m := by
  unfold aggStep
  by_cases hc : ai.2 = strCOUNT
  · rw [if_pos hc, if_pos hc, mapFind_mapInsert, if_pos hc.symm]
  · rw [if_neg hc, if_neg hc]
    by_cases hemp : (aggValues parse grows ai.1).isEmpty = true
    · rw [if_pos hemp]
    · rw [if_neg hemp]
      by_cases h4 : ai.2 = strSUM ∨ ai.2 = strAVG ∨ ai.2 = strMAX ∨ ai.2 = strMIN
      · rw [if_pos h4, mapFind_mapInsert, if_neg (fun h => hc h.symm)]
      · rw [if_neg h4]

theorem computeAggs_find_count (parse : List Nat → Option DVal)
    (aggEval : List Nat → List DVal → DVal) (grows : List RowV) :
    ∀ (aggIdx : List (Nat × List Nat)) (m : MapL DVal),
    mapFind strCOUNT (aggIdx.foldl (aggStep parse aggEval grows) m) =
      if ∃ ai ∈ aggIdx, ai.2 = strCOUNT then some (DVal.fin (grows.length : ℚ))
      else mapFind strCOUNT m := by
  intro aggIdx
  induction aggIdx with
  | nil => intro m; simp
  | cons ai rest ih =>
    intro m
    rw [List.foldl_cons, ih (aggStep parse aggEval grows m ai),
      aggStep_find_count]
    by_cases hc : ai.2 = strCOUNT
    · rw [if_pos hc]
      by_cases hrest : ∃ ai2 ∈ rest, ai2.2 = strCOUNT
      · rw [if_pos hrest, if_pos ⟨ai, List.mem_cons_self _ _, hc⟩]
      · rw [if_neg hrest, if_pos ⟨ai, List.mem_cons_self _ _, hc⟩]
    · rw [if_neg hc]
      by_cases hrest : ∃ ai2 ∈ rest, ai2.2 = strCOUNT
      · rw [if_pos hrest, if_pos (show ∃ ai2 ∈ ai :: rest, ai2.2 = strCOUNT from by
          obtain ⟨a2, h1, h2⟩ := hrest
          exact ⟨a2, List.mem_cons_of_mem _ h1, h2⟩)]
      · rw [if_neg hrest, if_neg (show ¬ ∃ ai2 ∈ ai :: rest, ai2.2 = strCOUNT from by
          rintro ⟨a2, hmem, h2⟩
          rcases List.mem_cons.mp hmem with he | hm
          · exact hc (he ▸ h2)
          · exact hrest ⟨a2, hm, h2⟩)]

theorem aggValues_isEmpty_false_iff (parse : List Nat → Option DVal)
    (grows : List RowV) (colIdx : Nat) :
    (aggValues parse grows colIdx).isEmpty = false ↔
      ∃ row ∈ grows, colIdx < row.values.length ∧
        (parse (row.values.getD colIdx [])).isSome = true := by
  unfold aggValues
  constructor
  · intro h
    cases hfm : grows.filterMap (fun row =>
        if colIdx < row.values.length then parse (row.values.getD colIdx [])
        else none) with
    | nil =>
      rw [hfm] at h
      exact Bool.noConfusion h
    | cons v vs =>
      have hv : v ∈ grows.filterMap (fun row =>
          if colIdx < row.values.length then parse (row.values.getD colIdx [])
          else none) := by
        rw [hfm]
        exact List.mem_cons_self _ _
      obtain ⟨row, hrow, hf⟩ := List.mem_filterMap.mp hv
      by_cases hlt : colIdx < row.values.length
      · rw [if_pos hlt] at hf
        exact ⟨row, hrow, hlt, by rw [hf]; rfl⟩
      · rw [if_neg hlt] at hf
        exact Option.noConfusion hf
  · rintro ⟨row, hrow, hlt, hps⟩
    cases hfm : grows.filterMap (fun row =>
        if colIdx < row.values.length then parse (row.values.getD colIdx [])
        else none) with
    | nil =>
      have hall := List.filterMap_eq_nil_iff.mp hfm row hrow
      rw [if_pos hlt] at hall
      rw [hall] at hps
      exact Bool.noConfusion hps
    | cons v vs => rfl

/-- C10.  `group_by` emits one result per bucket (in bucket-key order), and
for each bucket's aggregate map: a key for SUM, AVG, MAX or MIN is present
iff some aggregate spec with that function name resolved to a column for
which at least one value of the bucket parses as a number — in particular
the key is absent when no value parses — while the COUNT key is present,
mapped to the bucket's row count, exactly when some spec named COUNT has a
column name that resolves against the schema.  `parse` stands for
`std::stod` and `aggEval` for the double arithmetic of the aggregates;
the statement holds for every choice of both. -/
theorem c10_group_by_aggregate_keys (parse : List Nat → Option DVal)
    (aggEval : List Nat → List DVal → DVal) (cols : List Column)
    (rows : List RowV) (gcols : List (List Nat))
    (afns : List (List Nat × List Nat)) :
    group_by parse aggEval cols rows gcols afns =
      (groupsOf (groupIndicesOf cols gcols) rows).map
        (fun kv => GroupByResult.mk (splitKeyParts kv.1 gcols.length)
          (computeAggs parse aggEval (aggIndicesOf cols afns) kv.2)) ∧
    (∀ (grows : List RowV) (fn : List Nat), ¬ fn = strCOUNT →
      ((mapFind fn (computeAggs parse aggEval (aggIndicesOf cols afns)
          grows)).isSome = true ↔
        ∃ ai ∈ aggIndicesOf cols afns, ai.2 = fn ∧
          (fn = strSUM ∨ fn = strAVG ∨ fn = strMAX ∨ fn = strMIN) ∧
          ∃ row ∈ grows, ai.1 < row.values.length ∧
            (parse (row.values.getD ai.1 [])).isSome = true)) ∧
    (∀ grows : List RowV,
      mapFind strCOUNT (computeAggs parse aggEval (aggIndicesOf cols afns)
          grows) =
        if ∃ ai ∈ aggIndicesOf cols afns, ai.2 = strCOUNT
        then some (DVal.fin (grows.length : ℚ))
        else none) := by
  refine ⟨?_, ?_, ?_⟩
  · unfold group_by
    by_cases hemp : rows.isEmpty = true
    · rw [if_pos hemp]
      have hnil : rows = [] := by
        cases rows
        · rfl
        · exact Bool.noConfusion hemp
      subst hnil
      rfl
    · rw [if_neg hemp]
  · intro grows fn hfn
    unfold computeAggs
    rw [computeAggs_find_isSome parse aggEval grows (aggIndicesOf cols afns) [] fn]
    rw [mapFind_nil]
    constructor
    · intro h
      rcases h with ⟨ai, hmem, hfneq, hcond⟩ | h
      · rcases hcond with hcount | ⟨hne, h4⟩
        · exact absurd (hfneq ▸ hcount) hfn
        · refine ⟨ai, hmem, hfneq, hfneq ▸ h4, ?_⟩
          exact (aggValues_isEmpty_false_iff parse grows ai.1).mp hne
      · exact Bool.noConfusion h
    · rintro ⟨ai, hmem, hfneq, h4, hval⟩
      refine Or.inl ⟨ai, hmem, hfneq, Or.inr ⟨?_, hfneq ▸ h4⟩⟩
      exact (aggValues_isEmpty_false_iff parse grows ai.1).mpr hval
  · intro grows
    unfold computeAggs
    rw [computeAggs_find_count parse aggEval grows (aggIndicesOf cols afns) []]
    by_cases hex : ∃ ai ∈ aggIndicesOf cols afns, ai.2 = strCOUNT
    · rw [if_pos hex, if_pos hex]
    · rw [if_neg hex, if_neg hex, mapFind_nil]

/-- C10 witness: one bucket with a single row whose `"b"` value parses as a
number under the given parse function; SUM over `"b"` is present, SUM over
the same bucket without a parsing value is absent, and COUNT is present with
the bucket size. -/
theorem c10_group_by_aggregate_keys_witness :
    (mapFind strSUM (computeAggs (fun s => if s = [49] then some (DVal.fin 1) else none)
      (fun _ _ => DVal.fin 0)
      (aggIndicesOf [⟨[97], DataType.STRING, false⟩, ⟨[98], DataType.DOUBLE, false⟩]
        [([98], strSUM), ([98], strCOUNT)])
      [⟨[[120], [49]], false⟩])).isSome = true ∧
    (mapFind strSUM (computeAggs (fun s => if s = [49] then some (DVal.fin 1) else none)
      (fun _ _ => DVal.fin 0)
      (aggIndicesOf [⟨[97], DataType.STRING, false⟩, ⟨[98], DataType.DOUBLE, false⟩]
        [([98], strSUM), ([98], strCOUNT)])
      [⟨[[120], [122]], false⟩])).isSome = false ∧
    mapFind strCOUNT (computeAggs (fun s => if s = [49] then some (DVal.fin 1) else none)
      (fun _ _ => DVal.fin 0)
      (aggIndicesOf [⟨[97], DataType.STRING, false⟩, ⟨[98], DataType.DOUBLE, false⟩]
        [([98], strSUM), ([98], strCOUNT)])
      [⟨[[120], [49]], false⟩]) = some (DVal.fin 1) := by
  have h := c10_group_by_aggregate_keys
    (fun s => if s = [49] then some (DVal.fin 1) else none)
    (fun _ _ => DVal.fin 0)
    [⟨[97], DataType.STRING, false⟩, ⟨[98], DataType.DOUBLE, false⟩]
    [] [] [([98], strSUM), ([98], strCOUNT)]
  refine ⟨?_, ?_, ?_⟩
  · rw [(h.2.1 [⟨[[120], [49]], false⟩] strSUM (by decide))]
    decide
  · have hiff := h.2.1 [⟨[[120], [122]], false⟩] strSUM (by decide)
    cases hv : (mapFind strSUM (computeAggs
        (fun s => if s = [49] then some (DVal.fin 1) else none)
        (fun _ _ => DVal.fin 0)
        (aggIndicesOf [⟨[97], DataType.STRING, false⟩, ⟨[98], DataType.DOUBLE, false⟩]
          [([98], strSUM), ([98], strCOUNT)])
        [⟨[[120], [122]], false⟩])).isSome
    · rfl
    · exfalso
      have hex := hiff.mp hv
      revert hex
      decide
  · rw [h.2.2 [⟨[[120], [49]], false⟩]]
    rw [if_pos (by decide)]
    rfl

end DBCore
